import Mathlib

/-!
# Verification of the rpm package-manager core

A shallow embedding, in Lean 4, of the data model and the pure logic of the
`rpm` package manager (a Node-ecosystem dependency resolver/installer written
in Rust), together with theorems settling the frozen specification claims.

Conventions of the embedding:
* Rust `BTreeMap<String, T>` is a Lean association list `List (String × T)`
  whose well-formedness (strictly ascending keys) is carried as a hypothesis
  where a claim needs it; `HashMap` is an association list queried with
  `List.lookup` (first binding wins).
* JSON values (`serde_json::Value` and serde's serialize/deserialize derives)
  are modelled by the inductive `Rpm.Json` below and by hand-written
  serializers/parsers that follow the serde attributes on the Rust structs
  field by field.
* Machine integers are `Nat`/`Int` with explicit range side conditions.
* The semver library (the `semver` crate) is external to the repository, so
  the functions the code calls (`Version::parse`, `VersionReq::parse`,
  `req.matches`, `Version`'s total order) are parameters (`SemverOps`) with
  the version type carrying a `LinearOrder`.
* Filesystem paths are strings; `Path::join` is `pathJoin` below.
-/

namespace Rpm

/-- A JSON value (model of `serde_json::Value`; numbers restricted to the
integers used by the lockfile). -/
inductive Json where
  | null : Json
  | bool (b : Bool) : Json
  | num (n : Int) : Json
  | str (s : String) : Json
  | arr (elems : List Json) : Json
  | obj (fields : List (String × Json)) : Json

/-- The keys of a JSON object (in emission order), `[]` otherwise. -/
def Json.keys : Json → List String
  | .obj fields => fields.map Prod.fst
  | _ => []

/-- First binding of key `k` in a JSON object (serde's field lookup). -/
def Json.getField (j : Json) (k : String) : Option Json :=
  match j with
  | .obj fields => fields.lookup k
  | _ => none

/-- `src/types.rs` `LockPackage`: one entry of the lockfile's `packages` map.
Maps are modelled as association lists (see module header). -/
structure LockPackage where
  version : String
  resolved : String
  integrity : Option String
  dependencies : List (String × String)
  peer_dependencies : List (String × String)
  optional_dependencies : List (String × String)
  postinstall : Option String
  bin : Option Json

/-- `src/types.rs` `LockFile`. `lockfile_version` is a Rust `u32`, modelled
as `Nat` (the `u32` range is part of `LockFile.WF` below). -/
structure LockFile where
  name : String
  version : String
  lockfile_version : Nat
  packages : List (String × LockPackage)

/-- Serialize a `BTreeMap<String, String>` (serde emits the entries in map
order, values as JSON strings). -/
def serializeSmap (m : List (String × String)) : Json :=
  .obj (m.map fun kv => (kv.1, .str kv.2))

/-- Serde serialization of `LockPackage` (`src/types.rs` lines 126-149):
fields in declaration order; `dependencies`/`peerDependencies`/
`optionalDependencies` carry `skip_serializing_if = "BTreeMap::is_empty"`,
`postinstall` and `bin` carry `skip_serializing_if = "Option::is_none"`;
`integrity` has no `skip_serializing_if`, so a `None` integrity is emitted
as JSON `null`. -/
def serializeLockPackage (p : LockPackage) : Json :=
  .obj <|
    [("version", .str p.version), ("resolved", .str p.resolved),
     ("integrity", match p.integrity with | some s => .str s | none => .null)]
    ++ (if p.dependencies.isEmpty then [] else
          [("dependencies", serializeSmap p.dependencies)])
    ++ (if p.peer_dependencies.isEmpty then [] else
          [("peerDependencies", serializeSmap p.peer_dependencies)])
    ++ (if p.optional_dependencies.isEmpty then [] else
          [("optionalDependencies", serializeSmap p.optional_dependencies)])
    ++ (match p.postinstall with | some s => [("postinstall", .str s)] | none => [])
    ++ (match p.bin with | some j => [("bin", j)] | none => [])

/-- Serde serialization of `LockFile` (`src/types.rs` lines 117-124): the
four fields in declaration order. None of the fields carries a
`#[serde(rename)]`, so `lockfile_version` keeps its Rust (snake_case) name. -/
def serializeLockFile (lf : LockFile) : Json :=
  .obj
    [("name", .str lf.name), ("version", .str lf.version),
     ("lockfile_version", .num lf.lockfile_version),
     ("packages", .obj (lf.packages.map fun kp => (kp.1, serializeLockPackage kp.2)))]

/-- `BTreeMap` insertion on the sorted association-list model: keeps keys
strictly ascending, replaces an existing binding. -/
def smapInsert (k : String) (v : α) : List (String × α) → List (String × α)
  | [] => [(k, v)]
  | (k', v') :: t =>
    if k < k' then (k, v) :: (k', v') :: t
    else if k = k' then (k, v) :: t
    else (k', v') :: smapInsert k v t

/-- Deserialize a JSON value into a `String` (serde `String`). -/
def parseJstr : Json → Option String
  | .str s => some s
  | _ => none

/-- Deserialize an optional field into `Option<String>`: serde treats a
missing `Option` field as `None`, JSON `null` as `None`. -/
def parseOptStr : Option Json → Option (Option String)
  | none => some none
  | some .null => some none
  | some (.str s) => some (some s)
  | some _ => none

/-- Deserialize an optional field into `Option<serde_json::Value>`: missing
or `null` gives `None`, anything else is kept verbatim. -/
def parseOptVal : Option Json → Option (Option Json)
  | none => some none
  | some .null => some none
  | some j => some (some j)

/-- Deserialize the pairs of a JSON object as `(String, String)` bindings in
document order. -/
def parseStrPairs : List (String × Json) → Option (List (String × String))
  | [] => some []
  | (k, .str v) :: t => (parseStrPairs t).map (fun r => (k, v) :: r)
  | _ => none

/-- Deserialize a `#[serde(default)] BTreeMap<String, String>` field: a
missing field decodes as the empty map; an object is folded into the map by
inserting its entries in document order. -/
def parseSmapField (o : Option Json) : Option (List (String × String)) :=
  match o with
  | none => some []
  | some (.obj fields) =>
    (parseStrPairs fields).map fun prs => prs.foldl (fun m kv => smapInsert kv.1 kv.2 m) []
  | some _ => none

/-- Serde deserialization of `LockPackage` (`src/types.rs` lines 126-149):
`version` and `resolved` are required strings, `integrity`/`postinstall` are
optional strings, `bin` an optional value, and the three dependency maps
default to empty when missing. -/
def parseLockPackage (j : Json) : Option LockPackage :=
  match j with
  | .obj _ => do
    let version ← (j.getField "version").bind parseJstr
    let resolved ← (j.getField "resolved").bind parseJstr
    let integrity ← parseOptStr (j.getField "integrity")
    let dependencies ← parseSmapField (j.getField "dependencies")
    let peer_dependencies ← parseSmapField (j.getField "peerDependencies")
    let optional_dependencies ← parseSmapField (j.getField "optionalDependencies")
    let postinstall ← parseOptStr (j.getField "postinstall")
    let bin ← parseOptVal (j.getField "bin")
    pure ⟨version, resolved, integrity, dependencies, peer_dependencies,
          optional_dependencies, postinstall, bin⟩
  | _ => none

/-- Deserialize the entries of the `packages` object in document order. -/
def parsePkgPairs : List (String × Json) → Option (List (String × LockPackage))
  | [] => some []
  | (k, j) :: t => do
    let p ← parseLockPackage j
    let r ← parsePkgPairs t
    pure ((k, p) :: r)

/-- Deserialize the `#[serde(default)] BTreeMap<String, LockPackage>`
`packages` field. -/
def parsePackagesField (o : Option Json) : Option (List (String × LockPackage)) :=
  match o with
  | none => some []
  | some (.obj fields) =>
    (parsePkgPairs fields).map fun prs => prs.foldl (fun m kv => smapInsert kv.1 kv.2 m) []
  | some _ => none

/-- Serde deserialization of `LockFile` (`src/types.rs` lines 117-124):
`name`, `version` required strings; `lockfile_version` a required `u32`;
`packages` defaults to the empty map. -/
def parseLockFile (j : Json) : Option LockFile :=
  match j with
  | .obj _ => do
    let name ← (j.getField "name").bind parseJstr
    let version ← (j.getField "version").bind parseJstr
    let lv ← match j.getField "lockfile_version" with
      | some (.num n) => if 0 ≤ n ∧ n < 2 ^ 32 then some n.toNat else none
      | _ => none
    let packages ← parsePackagesField (j.getField "packages")
    pure ⟨name, version, lv, packages⟩
  | _ => none

/-- `Path::join` on the string model of paths (all paths the claims touch
join non-empty relative components). -/
def pathJoin (p q : String) : String :=
  if p = "" then q else p ++ "/" ++ q

/-- `src/installer.rs` `Installer::new` (lines 16-27): reads `HOME`, falls
back to `USERPROFILE`, and `expect`s — a panic, modelled as `none` — when
neither is set; the store root is `<home>/.rpm/store`. The environment is a
lookup function (`std::env::var`). -/
def installerNew (env : String → Option String) : Option String :=
  match (env "HOME").or (env "USERPROFILE") with
  | some home => some (pathJoin (pathJoin home ".rpm") "store")
  | none => none

/-- The empty lockfile `Manager::new` starts from (`src/manager.rs` lines
119-124) — also the fallback value `load_lockfile` substitutes when the
file's contents do not parse (lines 239-244). -/
def defaultLockFile : LockFile :=
  { name := "", version := "", lockfile_version := 3, packages := [] }

/-- `src/manager.rs` `Manager::load_lockfile` (lines 237-248): `current` is
the in-memory lockfile, `file` the result of reading `rpm-lock.json` (`none`
when the read fails, e.g. the file is missing; the JSON value otherwise).
The function always returns `Except.ok`: a missing file leaves the current
lockfile in place, an unparseable one is replaced by `defaultLockFile`. -/
def load_lockfile (current : LockFile) (file : Option Json) : Except Unit LockFile :=
  match file with
  | none => .ok current
  | some j => .ok ((parseLockFile j).getD defaultLockFile)

/-- The filesystem locations one `resolve_and_install` task touches for a
package `name`, as functions of the `target_dir` argument and the process's
current working directory (`src/manager.rs` lines 2073-2129 and
`src/installer.rs` lines 99-113). -/
structure TaskPaths where
  /-- Where the already-installed check looks: `target_dir/node_modules/<name>/package.json` (line 2073-2074). -/
  existsCheckPath : String
  /-- Directory the store tree is copied to: `install_package` is called
  with `std::env::current_dir()` (lines 2081-2083) and joins
  `node_modules/<name>` onto it (`installer.rs` line 101). -/
  copyDest : String
  /-- Path recorded for the package's postinstall script (line 2099),
  derived from `target_dir` (line 2073). -/
  postinstallPath : String
  /-- Root passed to `link_binaries` (line 2124). -/
  binLinkRoot : String

/-- `resolve_and_install`'s path computations for package `name` given the
task's `target_dir` argument and the current working directory `cwd`. -/
def taskPaths (name target_dir cwd : String) : TaskPaths :=
  { existsCheckPath :=
      pathJoin (pathJoin (pathJoin target_dir "node_modules") name) "package.json"
    copyDest := pathJoin (pathJoin cwd "node_modules") name
    postinstallPath := pathJoin (pathJoin target_dir "node_modules") name
    binLinkRoot := target_dir }

/-- The lockfile key `resolve_and_install` records the package under
(`src/manager.rs` line 2129). -/
def lockKeyFor (name : String) : String := "node_modules/" ++ name

/-- `src/registry.rs` `ResolvedAlias`. -/
structure ResolvedAlias where
  actual_name : String
  version_range : String
deriving DecidableEq

/-- `src/registry.rs` `parse_package_alias` (lines 20-57), on the character
view of the string (Rust byte indices from `find('@')` cut the string at the
same places the character indices do). Returns `none` for a spec that does
not start with `npm:`; for a scoped alias (`npm:@scope/name@range`) the name
is cut at the second `@` of the stripped spec; a spec with no `@` after the
(possibly scoped) name gets the range `"latest"`. -/
def parseAliasChars : List Char → Option ResolvedAlias
  | 'n' :: 'p' :: 'm' :: ':' :: spec =>
    -- the spec with the `npm:` prefix removed; `spec[1..]` is `spec.drop 1`
    if spec.head? = some '@' then
      match (spec.drop 1).findIdx? (· == '@') with
      | some atPos =>
        -- actual_at_pos = atPos + 1 (index in `spec`)
        some ⟨(spec.take (atPos + 1)).asString, (spec.drop (atPos + 2)).asString⟩
      | none => some ⟨spec.asString, "latest"⟩
    else
      match spec.findIdx? (· == '@') with
      | some atPos => some ⟨(spec.take atPos).asString, (spec.drop (atPos + 1)).asString⟩
      | none => some ⟨spec.asString, "latest"⟩
  | _ => none

def parse_package_alias (versionSpec : String) : Option ResolvedAlias :=
  parseAliasChars versionSpec.toList

/-- The `(actual_name, actual_range)` pair `fetch_and_resolve` (and
`check_optional_dep_compatible`) uses for the registry lookup of a
dependency declared under key `name` with range string `range`
(`src/manager.rs` lines 2244-2249). -/
def fetchTarget (name range : String) : String × String :=
  match parse_package_alias range with
  | some a => (a.actual_name, a.version_range)
  | none => (name, range)

/-- `Option<&str> == Some(current)` for `s.strip_prefix('!')`: the strip
succeeds (the first character is `'!'`) and the rest equals `current`. -/
def stripBangEq (s current : String) : Bool :=
  match s.toList with
  | c :: rest => c == '!' && rest.asString == current
  | [] => false

/-- `s.starts_with('!')`. -/
def startsBang (s : String) : Bool :=
  s.toList.head? == some '!'

/-- `src/manager.rs` `is_platform_compatible` (lines 54-83). The source
reads the compile-time constants `get_current_os()` / `get_current_cpu()`;
here the two current-platform tokens are parameters. -/
def is_platform_compatible (current_os current_cpu : String)
    (os cpu : List String) : Bool :=
  let os_ok :=
    if os.isEmpty then true
    else
      let has_negation := os.any (fun s => startsBang s)
      if has_negation then
        ! os.any (fun s => stripBangEq s current_os)
      else
        os.any (fun s => s == current_os)
  let cpu_ok :=
    if cpu.isEmpty then true
    else
      let has_negation := cpu.any (fun s => startsBang s)
      if has_negation then
        ! cpu.any (fun s => stripBangEq s current_cpu)
      else
        cpu.any (fun s => s == current_cpu)
  os_ok && cpu_ok

/-- `src/types.rs` `RegistryDist`. -/
structure RegistryDist where
  tarball : String
  integrity : Option String

/-- `src/types.rs` `RegistryVersion` (the Rust field `name` is spelled
`_name`, as in the source struct). -/
structure RegistryVersion where
  _name : String
  version : String
  dist : RegistryDist
  dependencies : List (String × String)
  peer_dependencies : List (String × String)
  optional_dependencies : List (String × String)
  scripts : List (String × String)
  bin : Option Json
  os : List String
  cpu : List String

/-- `src/types.rs` `RegistryPackage` (`dist_tags` and `versions` are Rust
`HashMap`s, modelled as association lists queried with `List.lookup`). -/
structure RegistryPackage where
  _name : String
  dist_tags : List (String × String)
  versions : List (String × RegistryVersion)

/-- `src/manager.rs` `is_version_platform_compatible` (lines 86-88). -/
def is_version_platform_compatible (current_os current_cpu : String)
    (v : RegistryVersion) : Bool :=
  is_platform_compatible current_os current_cpu v.os v.cpu

/-- The operations the code calls from the external `semver` crate
(`Version::parse`, `VersionReq::parse`, `VersionReq::matches`, and the
always-succeeding `VersionReq::parse("*")`). `V` is the crate's `Version`
type; its total order (`Ord`) is the ambient `LinearOrder V`. -/
structure SemverOps (V R : Type) where
  parseVersion : String → Option V
  parseReq : String → Option R
  reqMatches : R → V → Bool
  star : R

/-- `src/output.rs` `RpmError` (lines 193-215; the front-end-only variants
are omitted, the core only constructs these four). -/
inductive RpmError where
  | PackageNotFound (name : String) (suggestions : List String)
  | VersionNotFound (name : String) (requested : String) (available : List String)
  | NetworkError (name : String) (status : Option Nat) (message : String)
  | ParseError (name : String) (message : String)
deriving DecidableEq

/-- Insert `a` into `l` in front of the first element `b` with `le a b`. -/
def orderedInsertBy (le : α → α → Bool) (a : α) : List α → List α
  | [] => [a]
  | b :: t => if le a b then a :: b :: t else b :: orderedInsertBy le a t

/-- Stable sort by a boolean "less or equal": the model of Rust's
`slice::sort_by` (any stable sort; the two agree whenever the comparator is
a total preorder, which is the only case the claims speak about). -/
def sortBy (le : α → α → Bool) : List α → List α
  | [] => []
  | a :: t => orderedInsertBy le a (sortBy le t)

/-- The "less or equal" of an `Ordering`-valued comparator: `a` may stay
before `b` unless the comparator says `Greater`. -/
def cmpLe (c : α → α → Ordering) (a b : α) : Bool :=
  !(c a b == .gt)

/-- The comparator `Registry::get_available_versions` sorts with
(`src/registry.rs` lines 224-231): descending semver when both strings
parse, descending (reversed) string order otherwise. -/
def availCmp (S : SemverOps V R) [LinearOrder V] (a b : String) : Ordering :=
  match S.parseVersion a, S.parseVersion b with
  | some va, some vb => compare vb va
  | _, _ => compare b a

/-- `src/registry.rs` `Registry::get_available_versions` (lines 220-234):
all version keys, sorted by `availCmp`. -/
def get_available_versions (S : SemverOps V R) [LinearOrder V]
    (package : RegistryPackage) : List String :=
  sortBy (cmpLe (availCmp S)) (package.versions.map Prod.fst)

/-- `src/registry.rs` `Registry::resolve_version` (lines 173-217).
The source filters the version records whose `version` parses and matches
`req`, then sorts the records with `|a, b| parse(b.version).cmp(parse(a.version))`
(the `unwrap`s cannot fail: the filter kept only parseable records); here
the filter step keeps the parsed version alongside the record, which lets
the sort comparator read it back instead of re-parsing. -/
def resolve_version (S : SemverOps V R) [LinearOrder V]
    (package : RegistryPackage) (range : String) :
    Except RpmError RegistryVersion :=
  match package.dist_tags.lookup range with
  | some tag_version =>
    match package.versions.lookup tag_version with
    | some v => .ok v
    | none => .error (.VersionNotFound package._name range (get_available_versions S package))
  | none =>
    let req := (S.parseReq range).getD S.star
    let valid_versions : List (V × RegistryVersion) :=
      (package.versions.map Prod.snd).filterMap fun v =>
        match S.parseVersion v.version with
        | some parsed => if S.reqMatches req parsed then some (parsed, v) else none
        | none => none
    let sorted := sortBy (cmpLe (fun a b => compare b.1 a.1)) valid_versions
    match sorted.head? with
    | some pv => .ok pv.2
    | none => .error (.VersionNotFound package._name range (get_available_versions S package))

/-- `src/types.rs` `PackageJson`. -/
structure PackageJson where
  name : String
  version : String
  dependencies : List (String × String)
  dev_dependencies : List (String × String)
  peer_dependencies : List (String × String)
  optional_dependencies : List (String × String)
  scripts : List (String × String)
  bin : Option Json
  workspaces : List String

/-- `src/types.rs` `WorkspaceMember`. -/
structure WorkspaceMember where
  name : String
  path : String
  package_json : PackageJson

/-- `src/workspace.rs` `Workspace` (lines 17-24). -/
structure Workspace where
  root : String
  root_package : PackageJson
  members : List WorkspaceMember

/-- `BTreeMap` get-or-default-then-update on the sorted association-list
model (the `entry(k).or_default()` idiom). -/
def smapAlter (k : String) (f : Option α → α) : List (String × α) → List (String × α)
  | [] => [(k, f none)]
  | (k', v') :: t =>
    if k < k' then (k, f none) :: (k', v') :: t
    else if k = k' then (k, f (some v')) :: t
    else (k', v') :: smapAlter k f t

/-- `deps.entry(dep_name).or_default().entry(version).or_default().push(pkg_name)`
(`src/workspace.rs` lines 136-140). -/
def pushUser (dep_name version pkg_name : String)
    (deps : List (String × List (String × List String))) :
    List (String × List (String × List String)) :=
  smapAlter dep_name
    (fun inner => smapAlter version (fun users => users.getD [] ++ [pkg_name]) (inner.getD []))
    deps

/-- The `add_deps` closure of `collect_all_dependencies` (`src/workspace.rs`
lines 134-142): record every `(dep_name, version)` of one package's
dependency map in iteration (key-ascending) order. -/
def addDeps (pkg_name : String) (dependencies : List (String × String))
    (deps : List (String × List (String × List String))) :
    List (String × List (String × List String)) :=
  dependencies.foldl (fun m kv => pushUser kv.1 kv.2 pkg_name m) deps

/-- `src/workspace.rs` `Workspace::collect_all_dependencies` (lines
130-155): root `dependencies` and `devDependencies`, then each member's, in
member order. -/
def collect_all_dependencies (w : Workspace) :
    List (String × List (String × List String)) :=
  let deps := addDeps w.root_package.name w.root_package.dependencies []
  let deps := addDeps w.root_package.name w.root_package.dev_dependencies deps
  w.members.foldl
    (fun deps member =>
      addDeps member.name member.package_json.dev_dependencies
        (addDeps member.name member.package_json.dependencies deps))
    deps

/-- `trim_start_matches(c)`: drop every leading occurrence of `c`. -/
def trimStartChar (c : Char) : List Char → List Char
  | x :: t => if x = c then trimStartChar c t else x :: t
  | [] => []

/-- `trim_start_matches("ab")` for a two-character pattern. -/
def trimStartPair (a b : Char) : List Char → List Char
  | x :: y :: t => if x = a ∧ y = b then trimStartPair a b t else x :: y :: t
  | l => l

/-- The `clean_version` helper of `Workspace::compare_versions`
(`src/workspace.rs` lines 196-203): strip leading `^`, then `~`, then `>=`,
then `<=`, then `>`, then `<`. -/
def clean_version (v : String) : String :=
  (trimStartChar '<' <| trimStartChar '>' <| trimStartPair '<' '=' <|
    trimStartPair '>' '=' <| trimStartChar '~' <| trimStartChar '^' v.toList).asString

/-- `src/workspace.rs` `Workspace::compare_versions` (lines 194-216). -/
def compare_versions (S : SemverOps V R) [LinearOrder V]
    (v1 v2 : String) : Ordering :=
  let v1_clean := clean_version v1
  let v2_clean := clean_version v2
  match S.parseVersion v1_clean, S.parseVersion v2_clean with
  | some sv1, some sv2 => compare sv1 sv2
  | _, _ => compare v1_clean v2_clean

/-- `Iterator::max_by`: `none` on an empty list, otherwise the fold that
keeps the accumulator only when the comparator says `Greater` (so the last
of several maximal elements wins, as in Rust). -/
def maxBy (c : α → α → Ordering) : List α → Option α
  | [] => none
  | x :: t => some (t.foldl (fun acc y => if c acc y = .gt then acc else y) x)

/-- The comparator `get_hoisted_dependencies` maximizes by
(`src/workspace.rs` lines 172-180): usage count first, then
`compare_versions`. -/
def hoistCmp (S : SemverOps V R) [LinearOrder V]
    (a b : String × List String) : Ordering :=
  match compare a.2.length b.2.length with
  | .eq => compare_versions S a.1 b.1
  | o => o

/-- `src/workspace.rs` `Workspace::get_hoisted_dependencies` (lines
159-191): for every collected dependency that is not a member name, insert
the `max_by` winner among its `(version, users)` pairs, unless that winner
is the empty string. -/
def get_hoisted_dependencies (S : SemverOps V R) [LinearOrder V]
    (w : Workspace) : List (String × String) :=
  (collect_all_dependencies w).foldl
    (fun hoisted dv =>
      if w.members.any (fun m => m.name = dv.1) then hoisted
      else
        let best_version := ((maxBy (hoistCmp S) dv.2).map Prod.fst).getD ""
        if best_version.isEmpty then hoisted
        else smapInsert dv.1 best_version hoisted)
    []

/-- `null` test on a JSON value. -/
def Json.isNull : Json → Bool
  | .null => true
  | _ => false

/-- Well-formedness of a lock entry as the system produces it: the three
dependency maps are `BTreeMap`s (strictly ascending keys), and `bin`, when
present, is not the JSON `null` (a registry `"bin": null` deserializes to
`None`, never to `Some(Value::Null)`). -/
def LockPackage.WF (p : LockPackage) : Prop :=
  p.dependencies.Pairwise (fun a b => a.1 < b.1) ∧
  p.peer_dependencies.Pairwise (fun a b => a.1 < b.1) ∧
  p.optional_dependencies.Pairwise (fun a b => a.1 < b.1) ∧
  (p.bin.all fun j => !j.isNull) = true

/-- Well-formedness of a lockfile as the system produces it: `packages` is a
`BTreeMap`, each entry is well-formed, and `lockfile_version` fits in `u32`. -/
def LockFile.WF (lf : LockFile) : Prop :=
  lf.packages.Pairwise (fun a b => a.1 < b.1) ∧
  (∀ kp ∈ lf.packages, kp.2.WF) ∧
  lf.lockfile_version < 2 ^ 32

/-- The claim's reading of one platform-restriction list: empty ⇒
compatible; any element negated ⇒ compatible iff the current token does not
appear negated; otherwise compatible iff the current token appears. -/
def listCompatClaim (current : String) (l : List String) : Prop :=
  if l = [] then True
  else if ∃ s ∈ l, startsBang s = true then ("!" ++ current) ∉ l
  else current ∈ l

/-- `dep` is declared with range `r` somewhere in the workspace's root or
member `dependencies`/`devDependencies`. -/
def declaredRange (w : Workspace) (dep r : String) : Prop :=
  (dep, r) ∈ w.root_package.dependencies ∨
  (dep, r) ∈ w.root_package.dev_dependencies ∨
  ∃ m ∈ w.members, (dep, r) ∈ m.package_json.dependencies ∨
    (dep, r) ∈ m.package_json.dev_dependencies

/-- Keys of a map model are strictly ascending. -/
def SortedKeys {α : Type} (m : List (String × α)) : Prop :=
  m.Pairwise (fun a b => a.1 < b.1)

/-- Every binding of the collected-dependency map is a non-empty version
map whose version keys all satisfy `D` at the dependency name. -/
def MapInv (D : String → String → Prop)
    (m : List (String × List (String × List String))) : Prop :=
  ∀ k vs, List.lookup k m = some vs → vs ≠ [] ∧ ∀ vu ∈ vs, D k vu.1

/-- A concrete instantiation of the semver interface for witnesses:
versions and requirements are decimal naturals, a requirement matches any
version at least as large. -/
def natSemver : SemverOps Nat Nat :=
  { parseVersion := fun s =>
      match s.toList with
      | [] => none
      | cs =>
        if cs.all (fun c => c.isDigit) then
          some (cs.foldl (fun n c => n * 10 + (c.toNat - 48)) 0)
        else none
    parseReq := fun s =>
      match s.toList with
      | [] => none
      | cs =>
        if cs.all (fun c => c.isDigit) then
          some (cs.foldl (fun n c => n * 10 + (c.toNat - 48)) 0)
        else none
    reqMatches := fun r v => decide (r ≤ v)
    star := 0 }

/-- A concrete two-package workspace for witnesses: the root depends on
`lodash@^2`, the single member `app` on `lodash@3`. -/
def sampleWorkspace : Workspace :=
  { root := "/proj"
    root_package :=
      { name := "root", version := "1.0.0", dependencies := [("lodash", "^2")],
        dev_dependencies := [], peer_dependencies := [], optional_dependencies := [],
        scripts := [], bin := none, workspaces := ["packages/*"] }
    members := [
      { name := "app", path := "/proj/packages/app",
        package_json :=
          { name := "app", version := "0.1.0", dependencies := [("lodash", "3")],
            dev_dependencies := [], peer_dependencies := [], optional_dependencies := [],
            scripts := [], bin := none, workspaces := [] } }] }

/-! ## Helper lemmas: the sort model -/

theorem orderedInsertBy_perm (le : α → α → Bool) (a : α) (l : List α) :
    List.Perm (orderedInsertBy le a l) (a :: l) := by
  induction l with
  | nil => rfl
  | cons b t ih =>
    simp only [orderedInsertBy]
    split
    · rfl
    · exact ((ih.cons b).trans (List.Perm.swap a b t))

theorem sortBy_perm (le : α → α → Bool) (l : List α) : List.Perm (sortBy le l) l := by
  induction l with
  | nil => rfl
  | cons a t ih => exact (orderedInsertBy_perm le a (sortBy le t)).trans (ih.cons a)

theorem mem_sortBy {le : α → α → Bool} {l : List α} {a : α} :
    a ∈ sortBy le l ↔ a ∈ l :=
  (sortBy_perm le l).mem_iff

theorem pairwise_orderedInsertBy (le : α → α → Bool) (a : α) (s : List α)
    (hs : s.Pairwise (fun x y => le x y = true))
    (htot : ∀ b ∈ s, le a b = true ∨ le b a = true)
    (htr : ∀ b ∈ s, ∀ c ∈ s, le a b = true → le b c = true → le a c = true) :
    (orderedInsertBy le a s).Pairwise (fun x y => le x y = true) := by
  induction s with
  | nil => simp [orderedInsertBy]
  | cons b t ih =>
    rw [List.pairwise_cons] at hs
    simp only [orderedInsertBy]
    split
    · rename_i hab
      refine List.pairwise_cons.mpr ⟨?_, List.pairwise_cons.mpr ⟨hs.1, hs.2⟩⟩
      intro y hy
      rcases List.mem_cons.mp hy with rfl | hy
      · exact hab
      · exact htr b (by simp) y (by simp [hy]) hab (hs.1 y hy)
    · rename_i hab
      have hba : le b a = true := by
        rcases htot b (by simp) with h | h
        · exact absurd h hab
        · exact h
      refine List.pairwise_cons.mpr ⟨?_, ?_⟩
      · intro y hy
        rcases List.mem_cons.mp ((orderedInsertBy_perm le a t).mem_iff.mp hy) with rfl | hy
        · exact hba
        · exact hs.1 y hy
      · exact ih hs.2 (fun c hc => htot c (by simp [hc]))
          (fun c hc d hd => htr c (by simp [hc]) d (by simp [hd]))

theorem pairwise_sortBy (le : α → α → Bool) (l : List α)
    (htot : ∀ a ∈ l, ∀ b ∈ l, le a b = true ∨ le b a = true)
    (htr : ∀ a ∈ l, ∀ b ∈ l, ∀ c ∈ l, le a b = true → le b c = true → le a c = true) :
    (sortBy le l).Pairwise (fun x y => le x y = true) := by
  induction l with
  | nil => simp [sortBy]
  | cons a t ih =>
    simp only [sortBy]
    refine pairwise_orderedInsertBy le a (sortBy le t) ?_ ?_ ?_
    · exact ih (fun x hx y hy => htot x (by simp [hx]) y (by simp [hy]))
        (fun x hx y hy z hz => htr x (by simp [hx]) y (by simp [hy]) z (by simp [hz]))
    · intro b hb
      exact htot a (by simp) b (by simp [mem_sortBy.mp hb])
    · intro b hb c hc
      exact htr a (by simp) b (by simp [mem_sortBy.mp hb]) c (by simp [mem_sortBy.mp hc])

/-- The head of a pairwise-sorted list is related to every element. -/
theorem head_rel_of_pairwise {R : α → α → Prop} {x : α} {t : List α}
    (h : (x :: t).Pairwise R) : ∀ u ∈ x :: t, u = x ∨ R x u := by
  intro u hu
  rcases List.mem_cons.mp hu with rfl | hu
  · exact Or.inl rfl
  · exact Or.inr ((List.pairwise_cons.mp h).1 u hu)

/-! ## Helper lemmas: strings and paths -/

theorem string_eq_of_toList {s t : String} (h : s.toList = t.toList) : s = t := by
  have := congrArg List.asString h
  rwa [String.asString_toList, String.asString_toList] at this

theorem stripBangEq_iff {s current : String} :
    stripBangEq s current = true ↔ s = "!" ++ current := by
  have hbang : ("!" ++ current).toList = '!' :: current.toList := rfl
  unfold stripBangEq
  constructor
  · intro h
    match hs : s.toList with
    | [] => rw [hs] at h; simp at h
    | c :: rest =>
      rw [hs] at h
      rw [Bool.and_eq_true, beq_iff_eq, beq_iff_eq] at h
      apply string_eq_of_toList
      rw [hs, hbang, h.1, ← h.2]
      rw [List.toList_asString]
  · rintro rfl
    rw [hbang]
    simp only [beq_self_eq_true, Bool.true_and, beq_iff_eq]
    exact String.asString_toList current

theorem pathJoin_ne {p p' : String} (q : String) (h : p ≠ p') :
    pathJoin p q ≠ pathJoin p' q := by
  unfold pathJoin
  split <;> split <;> rename_i h1 h2
  · subst h1; exact absurd h2.symm h
  · subst h1
    intro he
    have := congrArg String.length he
    rw [String.length_append, String.length_append] at this
    have : ("/" : String).length = 1 := rfl
    omega
  · subst h2
    intro he
    have := congrArg String.length he
    rw [String.length_append, String.length_append] at this
    have : ("/" : String).length = 1 := rfl
    omega
  · intro he
    apply h
    have hl := congrArg String.toList he
    have e1 : (p ++ "/" ++ q).toList = (p.toList ++ ['/']) ++ q.toList := rfl
    have e2 : (p' ++ "/" ++ q).toList = (p'.toList ++ ['/']) ++ q.toList := rfl
    rw [e1, e2] at hl
    have := List.append_cancel_right (List.append_cancel_right hl)
    exact string_eq_of_toList this

theorem pathJoin_ne_empty {p q : String} (hq : q ≠ "") : pathJoin p q ≠ "" := by
  unfold pathJoin
  split
  · exact hq
  · intro he
    have := congrArg String.length he
    rw [String.length_append, String.length_append] at this
    have h1 : ("/" : String).length = 1 := rfl
    have h2 : ("" : String).length = 0 := rfl
    omega

/-! ## C6 — platform gating -/

theorem list_compat_iff (current : String) (l : List String) :
    (if l.isEmpty then true
     else
       let has_negation := l.any (fun s => startsBang s)
       if has_negation then ! l.any (fun s => stripBangEq s current)
       else l.any (fun s => s == current)) = true ↔ listCompatClaim current l := by
  unfold listCompatClaim
  by_cases hl : l = []
  · subst hl; simp
  · rw [if_neg hl, if_neg (by simpa [List.isEmpty_iff] using hl)]
    by_cases hneg : ∃ s ∈ l, startsBang s = true
    · rw [if_pos hneg, if_pos (by simpa [List.any_eq_true] using hneg)]
      simp only [Bool.not_eq_true', List.any_eq_false]
      constructor
      · intro h hmem
        exact absurd (stripBangEq_iff.mpr rfl)
          (by simpa using h _ hmem)
      · intro h s hs
        simp only [Bool.not_eq_true] at h ⊢
        rw [← Bool.not_eq_true]
        intro hx
        exact h (stripBangEq_iff.mp hx ▸ hs)
    · rw [if_neg hneg, if_neg (by simpa [List.any_eq_true] using hneg)]
      simp [List.any_eq_true]

/-- C6: a platform-restriction list is compatible per the claim's three
rules (empty list; any-negated list; plain allow-list), on each of `os` and
`cpu`, and a version is platform-compatible exactly when both its lists
are. -/
theorem is_platform_compatible_spec (current_os current_cpu : String)
    (v : RegistryVersion) :
    (is_version_platform_compatible current_os current_cpu v = true ↔
      listCompatClaim current_os v.os ∧ listCompatClaim current_cpu v.cpu) ∧
    (∀ os cpu : List String,
      is_platform_compatible current_os current_cpu os cpu = true ↔
        listCompatClaim current_os os ∧ listCompatClaim current_cpu cpu) := by
  have key : ∀ os cpu : List String,
      is_platform_compatible current_os current_cpu os cpu = true ↔
        listCompatClaim current_os os ∧ listCompatClaim current_cpu cpu := by
    intro os cpu
    unfold is_platform_compatible
    rw [Bool.and_eq_true]
    exact and_congr (list_compat_iff current_os os) (list_compat_iff current_cpu cpu)
  exact ⟨key v.os v.cpu, key⟩

/-! ## C10 — Installer::new home-directory requirement -/

/-- C10: `Installer::new` panics (modelled `none`) exactly when neither
`HOME` nor `USERPROFILE` is set; otherwise the store root is
`<home>/.rpm/store`, preferring `HOME`. -/
theorem installerNew_spec (env : String → Option String) :
    (installerNew env = none ↔ env "HOME" = none ∧ env "USERPROFILE" = none) ∧
    (∀ h, env "HOME" = some h →
      installerNew env = some (pathJoin (pathJoin h ".rpm") "store")) ∧
    (∀ h, env "HOME" = none → env "USERPROFILE" = some h →
      installerNew env = some (pathJoin (pathJoin h ".rpm") "store")) ∧
    (∀ h : String, h ≠ "" → pathJoin (pathJoin h ".rpm") "store" = h ++ "/.rpm/store") := by
  refine ⟨?_, ?_, ?_, ?_⟩
  · unfold installerNew
    cases hh : env "HOME" <;> cases hu : env "USERPROFILE" <;>
      simp [Option.or, hh, hu]
  · intro h hh
    unfold installerNew
    rw [hh]
    rfl
  · intro h hh hu
    unfold installerNew
    rw [hh, hu]
    rfl
  · intro h hh
    unfold pathJoin
    rw [if_neg hh]
    rw [if_neg (show ¬ h ++ "/" ++ ".rpm" = "" by
      intro he
      have := congrArg String.length he
      rw [String.length_append, String.length_append] at this
      have h4 : (".rpm" : String).length = 4 := rfl
      have h1 : ("/" : String).length = 1 := rfl
      have h0 : ("" : String).length = 0 := rfl
      omega)]
    simp [String.append_assoc]

/-! ## C9 — lockfile loading never fails -/

/-- C9: `load_lockfile` always succeeds; a missing `rpm-lock.json` keeps the
current (empty-default) in-memory lockfile, and an unparseable file is
silently replaced by the empty lockfile (empty name and version,
`lockfile_version` 3, no packages). -/
theorem load_lockfile_total (current : LockFile) (file : Option Json) :
    (∃ l, load_lockfile current file = .ok l) ∧
    load_lockfile current none = .ok current ∧
    (∀ j, parseLockFile j = none →
      load_lockfile current (some j) = .ok defaultLockFile) ∧
    defaultLockFile.name = "" ∧ defaultLockFile.version = "" ∧
    defaultLockFile.lockfile_version = 3 ∧ defaultLockFile.packages = [] := by
  refine ⟨?_, rfl, ?_, rfl, rfl, rfl, rfl⟩
  · cases file with
    | none => exact ⟨current, rfl⟩
    | some j => exact ⟨(parseLockFile j).getD defaultLockFile, rfl⟩
  · intro j hj
    simp [load_lockfile, hj]

/-! ## C8 — install copies under the current working directory -/

/-- C8: in a resolve-and-install task the copy destination is computed from
the process's current working directory (`install_package` receives
`std::env::current_dir()`), while the already-installed check, the recorded
postinstall path and the binary-link root are computed from the task's
`target_dir` argument; whenever the two roots differ, the copy destination
differs from the path the task records and checks. -/
theorem install_paths_divergence (name target_dir cwd : String) :
    (taskPaths name target_dir cwd).copyDest = pathJoin (pathJoin cwd "node_modules") name ∧
    (taskPaths name target_dir cwd).postinstallPath
      = pathJoin (pathJoin target_dir "node_modules") name ∧
    (taskPaths name target_dir cwd).existsCheckPath
      = pathJoin (taskPaths name target_dir cwd).postinstallPath "package.json" ∧
    (taskPaths name target_dir cwd).binLinkRoot = target_dir ∧
    (target_dir ≠ cwd →
      (taskPaths name target_dir cwd).copyDest
        ≠ (taskPaths name target_dir cwd).postinstallPath) := by
  refine ⟨rfl, rfl, rfl, rfl, ?_⟩
  intro hne
  show pathJoin (pathJoin cwd "node_modules") name
      ≠ pathJoin (pathJoin target_dir "node_modules") name
  exact pathJoin_ne name (pathJoin_ne "node_modules" (Ne.symm hne))

/-! ## C5 — npm aliases -/

theorem findIdx_bang_append (xs ys : List Char) (hno : '@' ∉ xs) :
    (xs ++ '@' :: ys).findIdx? (· == '@') = some xs.length := by
  induction xs with
  | nil => simp [List.findIdx?_cons]
  | cons x t ih =>
    have hx : (x == '@') = false := by
      simp only [beq_eq_false_iff_ne, ne_eq]
      intro h
      exact hno (h ▸ List.mem_cons_self x t)
    rw [List.cons_append, List.findIdx?_cons, hx]
    simp only [Bool.false_eq_true, if_false]
    rw [List.findIdx?_succ, ih (fun h => hno (List.mem_cons_of_mem x h))]
    simp

theorem findIdx_no_bang (xs : List Char) (hno : '@' ∉ xs) :
    xs.findIdx? (· == '@') = none := by
  rw [List.findIdx?_eq_none_iff]
  intro x hx
  simp only [beq_eq_false_iff_ne, ne_eq]
  rintro rfl
  exact hno hx

/-- C5: a dependency declared under key `K` with range `npm:<X>@<R>` is
looked up in the registry as name `X` at range `R` (a scoped `X` splits at
the second `@` of the stripped spec; `npm:<X>` with no further `@` resolves
at the `latest` tag), while the lockfile key and the installed directory are
computed from the declared key `K` — the content of `X` lands at
`node_modules/K`. -/
theorem alias_resolution_spec (K X Rg : String)
    (hX : (∃ t, X.toList = '@' :: t ∧ '@' ∉ t) ∨ (X ≠ "" ∧ '@' ∉ X.toList)) :
    fetchTarget K ("npm:" ++ X ++ "@" ++ Rg) = (X, Rg) ∧
    fetchTarget K ("npm:" ++ X) = (X, "latest") ∧
    lockKeyFor K = "node_modules/" ++ K ∧
    (∀ target_dir cwd, (taskPaths K target_dir cwd).copyDest
      = pathJoin (pathJoin cwd "node_modules") K) := by
  have hlist1 : ("npm:" ++ X ++ "@" ++ Rg).toList
      = 'n' :: 'p' :: 'm' :: ':' :: (X.toList ++ '@' :: Rg.toList) := by
    show (("npm:".toList ++ X.toList) ++ "@".toList) ++ Rg.toList
      = 'n' :: 'p' :: 'm' :: ':' :: (X.toList ++ '@' :: Rg.toList)
    rw [show "npm:".toList = ['n', 'p', 'm', ':'] from rfl,
        show "@".toList = ['@'] from rfl]
    simp [List.append_assoc]
  have hlist2 : ("npm:" ++ X).toList = 'n' :: 'p' :: 'm' :: ':' :: X.toList := by
    show "npm:".toList ++ X.toList = 'n' :: 'p' :: 'm' :: ':' :: X.toList
    rw [show "npm:".toList = ['n', 'p', 'm', ':'] from rfl]
    rfl
  have key1 : parse_package_alias ("npm:" ++ X ++ "@" ++ Rg) = some ⟨X, Rg⟩ := by
    rw [parse_package_alias, hlist1]
    rcases hX with ⟨t, hxt, hno⟩ | ⟨hne, hno⟩
    · rw [hxt]
      show parseAliasChars
        ('n' :: 'p' :: 'm' :: ':' :: ('@' :: (t ++ '@' :: Rg.toList))) = _
      simp only [parseAliasChars, List.head?_cons, reduceIte, List.drop_succ_cons,
        List.drop_zero]
      rw [findIdx_bang_append t Rg.toList hno]
      have htake : ('@' :: (t ++ '@' :: Rg.toList)).take (t.length + 1) = '@' :: t := by
        rw [show ('@' :: (t ++ '@' :: Rg.toList)) = ('@' :: t) ++ '@' :: Rg.toList from rfl,
            show t.length + 1 = ('@' :: t).length from rfl, List.take_left]
      have hdrop : (t ++ '@' :: Rg.toList).drop (t.length + 1) = Rg.toList := by
        rw [show (t ++ '@' :: Rg.toList) = (t ++ ['@']) ++ Rg.toList by simp,
            show t.length + 1 = (t ++ ['@']).length by simp, List.drop_left]
      have hdrop2 : ('@' :: (t ++ '@' :: Rg.toList)).drop (t.length + 2) = Rg.toList := by
        rw [show ('@' :: (t ++ '@' :: Rg.toList)) = (('@' :: t) ++ ['@']) ++ Rg.toList by
              simp,
            show t.length + 2 = (('@' :: t) ++ ['@']).length by simp, List.drop_left]
      simp only [htake, hdrop, hdrop2, ← hxt, String.asString_toList]
    · match hXl : X.toList with
      | [] => exact absurd (string_eq_of_toList (hXl.trans rfl)) hne
      | x :: t =>
        rw [hXl] at hno
        have hxat : x ≠ '@' := fun h => hno (h ▸ List.mem_cons_self x t)
        show parseAliasChars
          ('n' :: 'p' :: 'm' :: ':' :: (x :: (t ++ '@' :: Rg.toList))) = _
        simp only [parseAliasChars, List.head?_cons]
        rw [if_neg (show ¬(some x = some '@') by simpa using hxat)]
        rw [show (x :: (t ++ '@' :: Rg.toList)) = (x :: t) ++ '@' :: Rg.toList from rfl,
            findIdx_bang_append (x :: t) Rg.toList hno]
        have htake : ((x :: t) ++ '@' :: Rg.toList).take (x :: t).length = x :: t :=
          List.take_left _ _
        have hdrop : ((x :: t) ++ '@' :: Rg.toList).drop ((x :: t).length + 1)
            = Rg.toList := by
          rw [show ((x :: t) ++ '@' :: Rg.toList) = ((x :: t) ++ ['@']) ++ Rg.toList by
                simp,
              show (x :: t).length + 1 = ((x :: t) ++ ['@']).length by simp,
              List.drop_left]
        simp only [htake, hdrop]
        rw [← hXl, String.asString_toList, String.asString_toList]
  have key2 : parse_package_alias ("npm:" ++ X) = some ⟨X, "latest"⟩ := by
    rw [parse_package_alias, hlist2]
    rcases hX with ⟨t, hxt, hno⟩ | ⟨hne, hno⟩
    · rw [hxt]
      show parseAliasChars ('n' :: 'p' :: 'm' :: ':' :: ('@' :: t)) = _
      simp only [parseAliasChars, List.head?_cons, reduceIte,
        List.drop_succ_cons, List.drop_zero]
      rw [findIdx_no_bang t hno]
      simp only [← hxt, String.asString_toList]
    · match hXl : X.toList with
      | [] => exact absurd (string_eq_of_toList (hXl.trans rfl)) hne
      | x :: t =>
        rw [hXl] at hno
        have hxat : x ≠ '@' := fun h => hno (h ▸ List.mem_cons_self x t)
        show parseAliasChars ('n' :: 'p' :: 'm' :: ':' :: (x :: t)) = _
        simp only [parseAliasChars, List.head?_cons]
        rw [if_neg (show ¬(some x = some '@') by simpa using hxat)]
        rw [findIdx_no_bang (x :: t) hno]
        simp only [← hXl, String.asString_toList]
  refine ⟨?_, ?_, rfl, fun _ _ => rfl⟩
  · rw [fetchTarget, key1]
  · rw [fetchTarget, key2]

/-- Witness for C5 at the alias `npm:@babel/traverse@^7.25.3` declared
under the key `bt`. -/
theorem alias_resolution_witness :
    fetchTarget "bt" ("npm:" ++ "@babel/traverse" ++ "@" ++ "^7.25.3")
      = ("@babel/traverse", "^7.25.3") ∧
    fetchTarget "bt" ("npm:" ++ "@babel/traverse") = ("@babel/traverse", "latest") ∧
    lockKeyFor "bt" = "node_modules/" ++ "bt" ∧
    (∀ target_dir cwd, (taskPaths "bt" target_dir cwd).copyDest
      = pathJoin (pathJoin cwd "node_modules") "bt") :=
  alias_resolution_spec "bt" "@babel/traverse" "^7.25.3"
    (Or.inl ⟨"babel/traverse".toList, by decide, by decide⟩)

/-! ## C2 — lockfile top-level keys -/

/-- Counterexample to C2 as stated: the serialized lockfile's top-level keys
are `name`, `version`, `lockfile_version`, `packages` — the camel-case key
`lockfileVersion` the claim requires does not occur. -/
theorem lockfile_keys_cex :
    (serializeLockFile
        { name := "app", version := "1.0.0", lockfile_version := 3, packages := [] }).keys
      = ["name", "version", "lockfile_version", "packages"] ∧
    "lockfileVersion" ∉
      (serializeLockFile
        { name := "app", version := "1.0.0", lockfile_version := 3, packages := [] }).keys := by
  refine ⟨rfl, ?_⟩
  decide

/-- C2 (amended): every lockfile the system serializes is a JSON object
whose top-level keys are exactly `name`, `version`, `lockfile_version`
(snake_case — the Rust field has no serde rename) and `packages`;
`lockfile_version` carries the in-memory integer, which is 3 in the
manager's initial and fallback lockfiles. -/
theorem lockfile_keys_spec (lf : LockFile) :
    (serializeLockFile lf).keys = ["name", "version", "lockfile_version", "packages"] ∧
    (serializeLockFile lf).getField "lockfile_version" = some (.num lf.lockfile_version) ∧
    defaultLockFile.lockfile_version = 3 := by
  exact ⟨rfl, rfl, rfl⟩

/-! ## C3 — per-entry field omission -/

/-- Counterexample to C3 as stated: a lock entry with no integrity still
emits an `integrity` key (with value `null`) — the claim's "integrity …
omitted when absent" fails. -/
theorem lockpackage_integrity_cex :
    "integrity" ∈
      (serializeLockPackage
        { version := "1.3.0", resolved := "https://registry.npmjs.org/left-pad",
          integrity := none, dependencies := [], peer_dependencies := [],
          optional_dependencies := [], postinstall := none, bin := none }).keys ∧
    (serializeLockPackage
        { version := "1.3.0", resolved := "https://registry.npmjs.org/left-pad",
          integrity := none, dependencies := [], peer_dependencies := [],
          optional_dependencies := [], postinstall := none, bin := none }).getField
      "integrity" = some .null := by
  exact ⟨by decide, rfl⟩

/-- C3 (amended): the serializer omits `postinstall` and `bin` when absent
and omits each of the three dependency maps when empty, but `integrity` is
always emitted — as JSON `null` when absent. -/
theorem lockpackage_fields_spec (p : LockPackage) :
    ("postinstall" ∈ (serializeLockPackage p).keys ↔ p.postinstall ≠ none) ∧
    ("bin" ∈ (serializeLockPackage p).keys ↔ p.bin ≠ none) ∧
    ("dependencies" ∈ (serializeLockPackage p).keys ↔ p.dependencies ≠ []) ∧
    ("peerDependencies" ∈ (serializeLockPackage p).keys ↔ p.peer_dependencies ≠ []) ∧
    ("optionalDependencies" ∈ (serializeLockPackage p).keys ↔ p.optional_dependencies ≠ []) ∧
    "integrity" ∈ (serializeLockPackage p).keys ∧
    (p.integrity = none → (serializeLockPackage p).getField "integrity" = some .null) := by
  obtain ⟨ver, res, intg, deps, peers, opts, post, bin⟩ := p
  cases deps <;> cases peers <;> cases opts <;> cases post <;> cases bin <;>
    simp [serializeLockPackage, Json.keys, Json.getField, List.lookup] <;>
    rintro rfl <;> rfl

/-! ## C1 — version resolution -/

theorem cmpLe_gt_iff {V : Type} [LinearOrder V] (x y : V) :
    (!(compare x y == Ordering.gt)) = true ↔ x ≤ y := by
  cases h : compare x y with
  | lt =>
    simp only [iff_true_intro (le_of_lt (compare_lt_iff_lt.mp h)), iff_true]
    rfl
  | eq =>
    simp only [iff_true_intro (le_of_eq (compare_eq_iff_eq.mp h)), iff_true]
    rfl
  | gt =>
    simp only [iff_false_intro (not_le.mpr (compare_gt_iff_gt.mp h)), iff_false]
    rw [show ((Ordering.gt == Ordering.gt) = true) from rfl]
    decide

theorem resolve_version_eq_of_tag_none {V R : Type} [LinearOrder V] (S : SemverOps V R)
    (package : RegistryPackage) (range : String)
    (h : package.dist_tags.lookup range = none) :
    resolve_version S package range =
      match (sortBy (cmpLe (fun a b : V × RegistryVersion => compare b.1 a.1))
          ((package.versions.map Prod.snd).filterMap fun v =>
            match S.parseVersion v.version with
            | some parsed =>
              if S.reqMatches ((S.parseReq range).getD S.star) parsed then
                some (parsed, v)
              else none
            | none => none)).head? with
      | some pv => .ok pv.2
      | none => .error (.VersionNotFound package._name range
          (get_available_versions S package)) := by
  unfold resolve_version
  rw [h]

theorem resolve_version_eq_of_tag_some {V R : Type} [LinearOrder V] (S : SemverOps V R)
    (package : RegistryPackage) (range tv : String)
    (h : package.dist_tags.lookup range = some tv) :
    resolve_version S package range =
      match package.versions.lookup tv with
      | some v => .ok v
      | none => .error (.VersionNotFound package._name range
          (get_available_versions S package)) := by
  unfold resolve_version
  rw [h]

/-- C1: `resolve_version` first tries `range` as a literal dist-tag (and
fails `VersionNotFound` if the tagged version string is absent from
`versions`); otherwise it parses `range` as a semver requirement, falling
back to the parsed `"*"` when that fails, and returns a version record
whose version string parses, satisfies the requirement, and is greatest by
semver precedence among all satisfying records — failing `VersionNotFound`
when no record qualifies. The `available` payload is a permutation of the
version keys, sorted descending by semver precedence whenever all keys
parse. -/
theorem resolve_version_spec {V R : Type} [LinearOrder V] (S : SemverOps V R)
    (package : RegistryPackage) (range : String) :
    (∀ tv, package.dist_tags.lookup range = some tv →
      (∀ v, resolve_version S package range = .ok v ↔
        package.versions.lookup tv = some v) ∧
      (package.versions.lookup tv = none →
        resolve_version S package range =
          .error (.VersionNotFound package._name range (get_available_versions S package)))) ∧
    (package.dist_tags.lookup range = none →
      (∀ v, resolve_version S package range = .ok v →
        v ∈ package.versions.map Prod.snd ∧
        ∃ pv, S.parseVersion v.version = some pv ∧
          S.reqMatches ((S.parseReq range).getD S.star) pv = true ∧
          ∀ u ∈ package.versions.map Prod.snd, ∀ pu,
            S.parseVersion u.version = some pu →
            S.reqMatches ((S.parseReq range).getD S.star) pu = true → pu ≤ pv) ∧
      ((∃ u ∈ package.versions.map Prod.snd, ∃ pu,
          S.parseVersion u.version = some pu ∧
          S.reqMatches ((S.parseReq range).getD S.star) pu = true) →
        ∃ v, resolve_version S package range = .ok v) ∧
      ((∀ u ∈ package.versions.map Prod.snd, ∀ pu,
          S.parseVersion u.version = some pu →
          S.reqMatches ((S.parseReq range).getD S.star) pu = false) →
        resolve_version S package range =
          .error (.VersionNotFound package._name range (get_available_versions S package)))) ∧
    List.Perm (get_available_versions S package) (package.versions.map Prod.fst) ∧
    ((∀ k ∈ package.versions.map Prod.fst, (S.parseVersion k).isSome) →
      (get_available_versions S package).Pairwise (fun a b =>
        ∀ va vb, S.parseVersion a = some va → S.parseVersion b = some vb → vb ≤ va)) := by
  have hle : ∀ a b : V × RegistryVersion,
      cmpLe (fun a b : V × RegistryVersion => compare b.1 a.1) a b = true ↔ b.1 ≤ a.1 := by
    intro a b
    show (!(compare b.1 a.1 == Ordering.gt)) = true ↔ b.1 ≤ a.1
    exact cmpLe_gt_iff b.1 a.1
  refine ⟨?_, ?_, sortBy_perm _ _, ?_⟩
  · intro tv htv
    have hres := resolve_version_eq_of_tag_some S package range tv htv
    constructor
    · intro v
      rw [hres]
      cases hvv : package.versions.lookup tv with
      | some v0 => simp
      | none => simp
    · intro hvv
      rw [hres, hvv]
  · intro hdt
    have hres := resolve_version_eq_of_tag_none S package range hdt
    have hmem_valid : ∀ pu u,
        (pu, u) ∈ ((package.versions.map Prod.snd).filterMap fun v =>
            match S.parseVersion v.version with
            | some parsed =>
              if S.reqMatches ((S.parseReq range).getD S.star) parsed then
                some (parsed, v)
              else none
            | none => none) ↔
          u ∈ package.versions.map Prod.snd ∧ S.parseVersion u.version = some pu ∧
            S.reqMatches ((S.parseReq range).getD S.star) pu = true := by
      intro pu u
      rw [List.mem_filterMap]
      constructor
      · rintro ⟨w, hw, hmatch⟩
        split at hmatch
        · rename_i pw hp
          split at hmatch
          · rename_i hm
            have h2 := Option.some.inj hmatch
            rw [Prod.mk.injEq] at h2
            obtain ⟨rfl, rfl⟩ := h2
            exact ⟨hw, hp, hm⟩
          · exact absurd hmatch (by simp)
        · exact absurd hmatch (by simp)
      · rintro ⟨hu, hp, hm⟩
        refine ⟨u, hu, ?_⟩
        simp only [hp]
        rw [if_pos hm]
    have hpairwise : (sortBy (cmpLe (fun a b : V × RegistryVersion => compare b.1 a.1))
          ((package.versions.map Prod.snd).filterMap fun v =>
            match S.parseVersion v.version with
            | some parsed =>
              if S.reqMatches ((S.parseReq range).getD S.star) parsed then
                some (parsed, v)
              else none
            | none => none)).Pairwise
        (fun x y => cmpLe (fun a b : V × RegistryVersion => compare b.1 a.1) x y = true) := by
      refine pairwise_sortBy _ _ ?_ ?_
      · intro a _ b _
        rw [hle, hle]
        exact le_total b.1 a.1
      · intro a _ b _ c _
        rw [hle, hle, hle]
        exact fun h1 h2 => le_trans h2 h1
    refine ⟨?_, ?_, ?_⟩
    · intro v hv
      rw [hres] at hv
      cases hs : sortBy (cmpLe (fun a b : V × RegistryVersion => compare b.1 a.1))
          ((package.versions.map Prod.snd).filterMap fun v =>
            match S.parseVersion v.version with
            | some parsed =>
              if S.reqMatches ((S.parseReq range).getD S.star) parsed then
                some (parsed, v)
              else none
            | none => none) with
      | nil => rw [hs] at hv; exact absurd hv (by simp)
      | cons q tail =>
        rw [hs] at hv
        simp only [List.head?_cons] at hv
        have hqv : q.2 = v := by
          cases hv
          rfl
        have hq_valid := mem_sortBy.mp (hs ▸ List.mem_cons_self q tail)
        obtain ⟨hu, hp, hm⟩ := (hmem_valid q.1 q.2).mp (by simpa using hq_valid)
        refine ⟨hqv ▸ hu, q.1, hqv ▸ hp, hm, ?_⟩
        intro u hu2 pu hpu hmu
        have hsrt := (@mem_sortBy _
            (cmpLe (fun a b : V × RegistryVersion => compare b.1 a.1)) _ _).mpr
          ((hmem_valid pu u).mpr ⟨hu2, hpu, hmu⟩)
        rw [hs] at hsrt
        rcases head_rel_of_pairwise (hs ▸ hpairwise) (pu, u) hsrt with heq | hrel
        · rw [← heq]
        · exact (hle q (pu, u)).mp hrel
    · rintro ⟨u, hu, pu, hpu, hmu⟩
      have hsrt := (@mem_sortBy _
          (cmpLe (fun a b : V × RegistryVersion => compare b.1 a.1)) _ _).mpr
        ((hmem_valid pu u).mpr ⟨hu, hpu, hmu⟩)
      rw [hres]
      cases hs : sortBy (cmpLe (fun a b : V × RegistryVersion => compare b.1 a.1))
          ((package.versions.map Prod.snd).filterMap fun v =>
            match S.parseVersion v.version with
            | some parsed =>
              if S.reqMatches ((S.parseReq range).getD S.star) parsed then
                some (parsed, v)
              else none
            | none => none) with
      | nil => rw [hs] at hsrt; exact absurd hsrt (by simp)
      | cons q tail => exact ⟨q.2, rfl⟩
    · intro hall
      have hnil : ((package.versions.map Prod.snd).filterMap fun v =>
            match S.parseVersion v.version with
            | some parsed =>
              if S.reqMatches ((S.parseReq range).getD S.star) parsed then
                some (parsed, v)
              else none
            | none => none) = [] := by
        rw [List.filterMap_eq_nil_iff]
        intro u hu
        rcases hp : S.parseVersion u.version with _ | pu
        · rfl
        · simp only [hp]
          rw [if_neg (by rw [hall u hu pu hp]; simp)]
      rw [hres, hnil]
      rfl
  · intro hall
    have hpw : (get_available_versions S package).Pairwise
        (fun a b => cmpLe (availCmp S) a b = true) := by
      unfold get_available_versions
      refine pairwise_sortBy _ _ ?_ ?_
      · intro a ha b hb
        obtain ⟨va, hva⟩ := Option.isSome_iff_exists.mp (hall a ha)
        obtain ⟨vb, hvb⟩ := Option.isSome_iff_exists.mp (hall b hb)
        have hab : availCmp S a b = compare vb va := by
          unfold availCmp
          rw [hva, hvb]
        have hba : availCmp S b a = compare va vb := by
          unfold availCmp
          rw [hva, hvb]
        have e1 : cmpLe (availCmp S) a b = (!(compare vb va == Ordering.gt)) := by
          unfold cmpLe
          rw [hab]
        have e2 : cmpLe (availCmp S) b a = (!(compare va vb == Ordering.gt)) := by
          unfold cmpLe
          rw [hba]
        rw [e1, e2, cmpLe_gt_iff, cmpLe_gt_iff]
        exact le_total vb va
      · intro a ha b hb c hc
        obtain ⟨va, hva⟩ := Option.isSome_iff_exists.mp (hall a ha)
        obtain ⟨vb, hvb⟩ := Option.isSome_iff_exists.mp (hall b hb)
        obtain ⟨vc, hvc⟩ := Option.isSome_iff_exists.mp (hall c hc)
        have e1 : cmpLe (availCmp S) a b = (!(compare vb va == Ordering.gt)) := by
          unfold cmpLe availCmp
          rw [hva, hvb]
        have e2 : cmpLe (availCmp S) b c = (!(compare vc vb == Ordering.gt)) := by
          unfold cmpLe availCmp
          rw [hvb, hvc]
        have e3 : cmpLe (availCmp S) a c = (!(compare vc va == Ordering.gt)) := by
          unfold cmpLe availCmp
          rw [hva, hvc]
        rw [e1, e2, e3, cmpLe_gt_iff, cmpLe_gt_iff, cmpLe_gt_iff]
        exact fun h1 h2 => le_trans h2 h1
    refine hpw.imp ?_
    intro a b hab va vb hva hvb
    have e1 : cmpLe (availCmp S) a b = (!(compare vb va == Ordering.gt)) := by
      unfold cmpLe availCmp
      rw [hva, hvb]
    rw [e1, cmpLe_gt_iff] at hab
    exact hab

/-! ## C4 — lockfile round trip -/

theorem smapInsert_append {α : Type} (k : String) (v : α) (acc : List (String × α))
    (h : ∀ kv ∈ acc, kv.1 < k) : smapInsert k v acc = acc ++ [(k, v)] := by
  induction acc with
  | nil => rfl
  | cons x t ih =>
    have hx := h x (List.mem_cons_self x t)
    unfold smapInsert
    rw [if_neg (lt_asymm hx), if_neg (ne_of_gt hx)]
    rw [ih (fun kv hkv => h kv (List.mem_cons_of_mem x hkv))]
    rfl

theorem foldl_smapInsert {α : Type} (m : List (String × α))
    (hm : m.Pairwise (fun a b => a.1 < b.1)) :
    ∀ acc : List (String × α), (∀ kv ∈ acc, ∀ kv2 ∈ m, kv.1 < kv2.1) →
      m.foldl (fun m kv => smapInsert kv.1 kv.2 m) acc = acc ++ m := by
  induction m with
  | nil => intro acc _; simp
  | cons x t ih =>
    intro acc hacc
    rw [List.pairwise_cons] at hm
    rw [List.foldl_cons,
        smapInsert_append x.1 x.2 acc
          (fun kv hkv => hacc kv hkv x (List.mem_cons_self x t))]
    rw [ih hm.2 (acc ++ [x]) ?_]
    · simp
    · intro kv hkv kv2 hkv2
      rcases List.mem_append.mp hkv with hkv | hkv
      · exact hacc kv hkv kv2 (List.mem_cons_of_mem x hkv2)
      · rw [List.mem_singleton.mp hkv]
        exact hm.1 kv2 hkv2

theorem parseStrPairs_map (m : List (String × String)) :
    parseStrPairs (m.map fun kv => (kv.1, Json.str kv.2)) = some m := by
  induction m with
  | nil => rfl
  | cons x t ih =>
    obtain ⟨k, v⟩ := x
    simp [parseStrPairs, ih]

theorem parseSmapField_serializeSmap (m : List (String × String))
    (hm : m.Pairwise (fun a b => a.1 < b.1)) :
    parseSmapField (some (serializeSmap m)) = some m := by
  show (parseStrPairs (m.map fun kv => (kv.1, Json.str kv.2))).map
      (fun prs => prs.foldl (fun m kv => smapInsert kv.1 kv.2 m) []) = some m
  rw [parseStrPairs_map]
  show some (m.foldl (fun m kv => smapInsert kv.1 kv.2 m) []) = some m
  rw [foldl_smapInsert m hm [] (by simp)]
  rfl

theorem parseOptVal_notNull (j : Json) (h : j.isNull = false) :
    parseOptVal (some j) = some (some j) := by
  cases j <;> first | rfl | exact absurd h (by simp [Json.isNull])

/-- Assembling a `LockPackage` parse from its eight field parses. -/
theorem parseLockPackage_fields (j : Json)
    (v r : String) (ig : Option String) (d pd od : List (String × String))
    (ps : Option String) (b : Option Json)
    (h1 : j.getField "version" = some (.str v))
    (h2 : j.getField "resolved" = some (.str r))
    (h3 : parseOptStr (j.getField "integrity") = some ig)
    (h4 : parseSmapField (j.getField "dependencies") = some d)
    (h5 : parseSmapField (j.getField "peerDependencies") = some pd)
    (h6 : parseSmapField (j.getField "optionalDependencies") = some od)
    (h7 : parseOptStr (j.getField "postinstall") = some ps)
    (h8 : parseOptVal (j.getField "bin") = some b)
    (hj : ∃ f, j = .obj f) :
    parseLockPackage j = some ⟨v, r, ig, d, pd, od, ps, b⟩ := by
  obtain ⟨f, rfl⟩ := hj
  have e0 : parseLockPackage (Json.obj f) =
      (((Json.obj f).getField "version").bind parseJstr).bind (fun version =>
        (((Json.obj f).getField "resolved").bind parseJstr).bind (fun resolved =>
          (parseOptStr ((Json.obj f).getField "integrity")).bind (fun integrity =>
            (parseSmapField ((Json.obj f).getField "dependencies")).bind (fun dependencies =>
              (parseSmapField ((Json.obj f).getField "peerDependencies")).bind
                (fun peer_dependencies =>
                  (parseSmapField ((Json.obj f).getField "optionalDependencies")).bind
                    (fun optional_dependencies =>
                      (parseOptStr ((Json.obj f).getField "postinstall")).bind
                        (fun postinstall =>
                          (parseOptVal ((Json.obj f).getField "bin")).bind (fun bin =>
                            some ⟨version, resolved, integrity, dependencies,
                                  peer_dependencies, optional_dependencies, postinstall,
                                  bin⟩)))))))) := rfl
  rw [e0, h1, h2, h3, h4, h5, h6, h7, h8]
  rfl

set_option maxHeartbeats 2000000 in
/-- One lock entry round-trips through the serializer and parser. -/
theorem parseLockPackage_roundtrip (p : LockPackage) (h : p.WF) :
    parseLockPackage (serializeLockPackage p) = some p := by
  obtain ⟨hd, hpd, hod, hb⟩ := h
  obtain ⟨ver, res, intg, deps, peers, opts, post, bin⟩ := p
  simp only at hd hpd hod hb
  have h1 := parseSmapField_serializeSmap deps hd
  have h2 := parseSmapField_serializeSmap peers hpd
  have h3 := parseSmapField_serializeSmap opts hod
  cases deps <;> cases peers <;> cases opts <;> cases post <;> cases intg <;> cases bin <;>
    refine parseLockPackage_fields _ _ _ _ _ _ _ _ _ rfl rfl rfl ?_ ?_ ?_ rfl ?_ ⟨_, rfl⟩ <;>
    first
      | rfl
      | exact h1
      | exact h2
      | exact h3
      | exact parseOptVal_notNull _ (by simpa using hb)

theorem parsePkgPairs_map (m : List (String × LockPackage))
    (h : ∀ kp ∈ m, kp.2.WF) :
    parsePkgPairs (m.map fun kp => (kp.1, serializeLockPackage kp.2)) = some m := by
  induction m with
  | nil => rfl
  | cons x t ih =>
    simp [parsePkgPairs, parseLockPackage_roundtrip x.2 (h x (List.mem_cons_self x t)),
      ih (fun kp hkp => h kp (List.mem_cons_of_mem x hkp))]

/-- C4: for every well-formed lockfile value (sorted maps, `u32` version,
no `Some(Value::Null)` bin — exactly what the system can produce), parsing
the serialized lockfile returns the value unchanged. -/
theorem lockfile_roundtrip (L : LockFile) (hWF : L.WF) :
    parseLockFile (serializeLockFile L) = some L := by
  obtain ⟨hpw, hents, hver⟩ := hWF
  obtain ⟨nm, ver, lv, pkgs⟩ := L
  simp only at hpw hents hver
  have hpkgs : parsePackagesField
      (some (.obj (pkgs.map fun kp => (kp.1, serializeLockPackage kp.2)))) = some pkgs := by
    show (parsePkgPairs (pkgs.map fun kp => (kp.1, serializeLockPackage kp.2))).map
        (fun prs => prs.foldl (fun m kv => smapInsert kv.1 kv.2 m) []) = some pkgs
    rw [parsePkgPairs_map pkgs hents]
    show some (pkgs.foldl (fun m kv => smapInsert kv.1 kv.2 m) []) = some pkgs
    rw [foldl_smapInsert pkgs hpw [] (by simp)]
    rfl
  have hver4 : lv < 4294967296 := by
    have h32 : (2 : ℕ) ^ 32 = 4294967296 := by norm_num
    rw [h32] at hver
    exact hver
  have hcond : (0 : ℤ) ≤ (lv : ℤ) ∧ (lv : ℤ) < 2 ^ 32 :=
    ⟨Int.natCast_nonneg lv, by exact_mod_cast hver4⟩
  simp [parseLockFile, serializeLockFile, Json.getField, List.lookup, parseJstr,
    hpkgs, if_pos hcond, hver4]

/-- Witness for C4 at a concrete one-package lockfile. -/
theorem lockfile_roundtrip_witness :
    parseLockFile (serializeLockFile
      { name := "app", version := "1.0.0", lockfile_version := 3,
        packages := [("node_modules/left-pad",
          { version := "1.3.0",
            resolved := "https://registry.npmjs.org/left-pad/-/left-pad-1.3.0.tgz",
            integrity := none, dependencies := [("a", "^1.0.0"), ("b", "~2.0.0")],
            peer_dependencies := [], optional_dependencies := [],
            postinstall := some "node setup.js", bin := some (.str "cli.js") })] })
      = some
      { name := "app", version := "1.0.0", lockfile_version := 3,
        packages := [("node_modules/left-pad",
          { version := "1.3.0",
            resolved := "https://registry.npmjs.org/left-pad/-/left-pad-1.3.0.tgz",
            integrity := none, dependencies := [("a", "^1.0.0"), ("b", "~2.0.0")],
            peer_dependencies := [], optional_dependencies := [],
            postinstall := some "node setup.js", bin := some (.str "cli.js") })] } :=
  lockfile_roundtrip _
    ⟨by simp, by
      intro kp hkp
      rw [List.mem_singleton] at hkp
      subst hkp
      exact ⟨by simp <;> decide, by simp, by simp, rfl⟩, by norm_num⟩

/-! ## C7 — workspace hoisting: map lemmas -/

theorem lookup_eq_none_of_ne {α : Type} {m : List (String × α)} {k : String}
    (h : ∀ kv ∈ m, kv.1 ≠ k) : List.lookup k m = none := by
  induction m with
  | nil => rfl
  | cons x t ih =>
    have hbf : (k == x.1) = false :=
      beq_eq_false_iff_ne.mpr fun he => h x (List.mem_cons_self x t) he.symm
    rw [List.lookup]
    rw [hbf]
    exact ih (fun kv hkv => h kv (List.mem_cons_of_mem x hkv))

theorem beq_true_of_eq {k k' : String} (h : k' = k) : (k' == k) = true :=
  beq_iff_eq.mpr h

theorem beq_false_of_ne {k k' : String} (h : ¬ k' = k) : (k' == k) = false :=
  beq_eq_false_iff_ne.mpr h

theorem smapInsert_lookup {α : Type} (k : String) (v : α) (m : List (String × α))
    (k' : String) :
    List.lookup k' (smapInsert k v m) = if k' = k then some v else List.lookup k' m := by
  induction m with
  | nil =>
    by_cases h : k' = k
    · simp [smapInsert, List.lookup, h, beq_true_of_eq rfl]
    · simp [smapInsert, List.lookup, h, beq_false_of_ne h]
  | cons x t ih =>
    obtain ⟨a, b⟩ := x
    unfold smapInsert
    split
    · rename_i hlt
      by_cases h : k' = k
      · subst h
        simp [List.lookup, beq_true_of_eq rfl]
      · simp [List.lookup, h, beq_false_of_ne h]
    · split
      · rename_i hne heq
        subst heq
        by_cases h : k' = k
        · subst h
          simp [List.lookup, beq_true_of_eq rfl]
        · simp [List.lookup, h, beq_false_of_ne h]
      · rename_i hlt hne
        by_cases h : k' = a
        · subst h
          have hkk : ¬ k' = k := fun he => hne he.symm
          simp [List.lookup, hkk, beq_true_of_eq rfl]
        · simp [List.lookup, beq_false_of_ne h, ih]

theorem smapAlter_ne_nil {α : Type} (k : String) (f : Option α → α)
    (m : List (String × α)) : smapAlter k f m ≠ [] := by
  cases m with
  | nil => simp [smapAlter]
  | cons x t =>
    obtain ⟨a, b⟩ := x
    unfold smapAlter
    split
    · simp
    · split <;> simp

theorem mem_smapAlter {α : Type} {k : String} {f : Option α → α}
    {m : List (String × α)} {kv : String × α} (h : kv ∈ smapAlter k f m) :
    kv.1 = k ∨ kv ∈ m := by
  induction m with
  | nil =>
    simp only [smapAlter, List.mem_singleton] at h
    subst h
    exact Or.inl rfl
  | cons x t ih =>
    obtain ⟨a, b⟩ := x
    unfold smapAlter at h
    split at h
    · rcases List.mem_cons.mp h with rfl | h
      · exact Or.inl rfl
      · exact Or.inr h
    · split at h
      · rcases List.mem_cons.mp h with rfl | h
        · exact Or.inl rfl
        · exact Or.inr (List.mem_cons_of_mem _ h)
      · rcases List.mem_cons.mp h with rfl | h
        · exact Or.inr (List.mem_cons_self _ _)
        · rcases ih h with h | h
          · exact Or.inl h
          · exact Or.inr (List.mem_cons_of_mem _ h)

theorem smapAlter_sorted {α : Type} (k : String) (f : Option α → α)
    (m : List (String × α)) (hm : SortedKeys m) : SortedKeys (smapAlter k f m) := by
  induction m with
  | nil => simp [smapAlter, SortedKeys]
  | cons x t ih =>
    obtain ⟨a, b⟩ := x
    rw [SortedKeys, List.pairwise_cons] at hm
    unfold smapAlter
    split
    · rename_i hlt
      refine List.Pairwise.cons ?_ (List.Pairwise.cons hm.1 hm.2)
      intro y hy
      rcases List.mem_cons.mp hy with rfl | hy
      · exact hlt
      · exact lt_trans hlt (hm.1 y hy)
    · split
      · rename_i hne heq
        subst heq
        exact List.Pairwise.cons hm.1 hm.2
      · rename_i hlt hne
        have hgt : a < k := by
          rcases lt_trichotomy k a with h | h | h
          · exact absurd h hlt
          · exact absurd h hne
          · exact h
        refine List.Pairwise.cons ?_ (ih hm.2)
        intro y hy
        rcases mem_smapAlter hy with h | h
        · rw [h]; exact hgt
        · exact hm.1 y h

theorem smapAlter_lookup {α : Type} (k : String) (f : Option α → α)
    (m : List (String × α)) (hm : SortedKeys m) (k' : String) :
    List.lookup k' (smapAlter k f m) =
      if k' = k then some (f (List.lookup k m)) else List.lookup k' m := by
  induction m with
  | nil =>
    by_cases h : k' = k
    · simp [smapAlter, List.lookup, h, beq_true_of_eq rfl]
    · simp [smapAlter, List.lookup, h, beq_false_of_ne h]
  | cons x t ih =>
    obtain ⟨a, b⟩ := x
    rw [SortedKeys, List.pairwise_cons] at hm
    unfold smapAlter
    split
    · rename_i hlt
      have hnone : List.lookup k ((a, b) :: t) = none := by
        refine lookup_eq_none_of_ne ?_
        intro kv hkv
        rcases List.mem_cons.mp hkv with rfl | hkv
        · exact ne_of_gt hlt
        · exact ne_of_gt (lt_trans hlt (hm.1 kv hkv))
      rw [hnone]
      by_cases h : k' = k
      · subst h
        simp [List.lookup, beq_true_of_eq rfl]
      · simp [List.lookup, h, beq_false_of_ne h]
    · split
      · rename_i hne heq
        subst heq
        have hlk : List.lookup k ((k, b) :: t) = some b := by
          simp [List.lookup, beq_true_of_eq rfl]
        rw [hlk]
        by_cases h : k' = k
        · subst h
          simp [List.lookup, beq_true_of_eq rfl]
        · simp [List.lookup, h, beq_false_of_ne h]
      · rename_i hlt hne
        have hgt : a < k := by
          rcases lt_trichotomy k a with h | h | h
          · exact absurd h hlt
          · exact absurd h hne
          · exact h
        have hka : ¬ k = a := ne_of_gt hgt
        by_cases h : k' = a
        · subst h
          have h1 : ¬ k' = k := fun he => hka he.symm
          simp [List.lookup, h1, beq_true_of_eq rfl, beq_false_of_ne h1]
        · have e1 : List.lookup k' ((a, b) :: smapAlter k f t)
              = List.lookup k' (smapAlter k f t) := by
            simp [List.lookup, beq_false_of_ne h]
          have e2 : List.lookup k ((a, b) :: t) = List.lookup k t := by
            simp [List.lookup, beq_false_of_ne hka]
          have e3 : List.lookup k' ((a, b) :: t) = List.lookup k' t := by
            simp [List.lookup, beq_false_of_ne h]
          rw [e1, e2, e3, ih hm.2]

theorem maxBy_mem {α : Type} (c : α → α → Ordering) (l : List α) (m : α)
    (hm : maxBy c l = some m) : m ∈ l := by
  cases l with
  | nil => exact absurd hm (by simp [maxBy])
  | cons x t =>
    have hfold : ∀ (t' : List α) (acc : α),
        t'.foldl (fun acc y => if c acc y = .gt then acc else y) acc = acc ∨
        t'.foldl (fun acc y => if c acc y = .gt then acc else y) acc ∈ t' := by
      intro t'
      induction t' with
      | nil => exact fun acc => Or.inl rfl
      | cons y t2 ih =>
        intro acc
        rw [List.foldl_cons]
        rcases ih (if c acc y = .gt then acc else y) with h | h
        · rw [h]
          split
          · exact Or.inl rfl
          · exact Or.inr (List.mem_cons_self y t2)
        · exact Or.inr (List.mem_cons_of_mem y h)
    have : maxBy c (x :: t) = some (t.foldl (fun acc y => if c acc y = .gt then acc else y) x) := rfl
    rw [this] at hm
    have hfm := Option.some.inj hm
    rcases hfold t x with h | h
    · rw [← hfm, h]
      exact List.mem_cons_self x t
    · rw [← hfm]
      exact List.mem_cons_of_mem x h

theorem pushUser_sorted (dep ver user : String)
    (m : List (String × List (String × List String))) (hm : SortedKeys m) :
    SortedKeys (pushUser dep ver user m) :=
  smapAlter_sorted dep _ m hm

theorem pushUser_lookup (dep ver user : String)
    (m : List (String × List (String × List String))) (hm : SortedKeys m)
    (k : String) :
    List.lookup k (pushUser dep ver user m) =
      if k = dep then
        some (smapAlter ver (fun users => users.getD [] ++ [user])
          ((List.lookup dep m).getD []))
      else List.lookup k m :=
  smapAlter_lookup dep _ m hm k

theorem pushUser_inv (D : String → String → Prop) (dep ver user : String)
    (m : List (String × List (String × List String))) (hm : SortedKeys m)
    (hD : D dep ver) (hInv : MapInv D m) :
    MapInv D (pushUser dep ver user m) := by
  intro k vs hvs
  rw [pushUser_lookup dep ver user m hm k] at hvs
  split at hvs
  · rename_i hk
    subst hk
    have hvs' := Option.some.inj hvs
    subst hvs'
    refine ⟨smapAlter_ne_nil _ _ _, ?_⟩
    intro vu hvu
    rcases mem_smapAlter hvu with h | h
    · rw [h]
      exact hD
    · cases hold : List.lookup k m with
      | some old =>
        rw [hold] at h
        exact (hInv k old hold).2 vu h
      | none =>
        rw [hold] at h
        exact absurd h (by simp)
  · exact hInv k vs hvs

theorem addDeps_props (D : String → String → Prop) (pkg : String)
    (ds : List (String × String)) (hds : ∀ kv ∈ ds, D kv.1 kv.2) :
    ∀ m, SortedKeys m → MapInv D m →
      SortedKeys (addDeps pkg ds m) ∧ MapInv D (addDeps pkg ds m) ∧
      ∀ k, (List.lookup k (addDeps pkg ds m) ≠ none ↔
        (∃ v, (k, v) ∈ ds) ∨ List.lookup k m ≠ none) := by
  induction ds with
  | nil =>
    intro m hm hInv
    exact ⟨hm, hInv, fun k => by simp [addDeps]⟩
  | cons x t ih =>
    intro m hm hInv
    have step : addDeps pkg (x :: t) m = addDeps pkg t (pushUser x.1 x.2 pkg m) := by
      unfold addDeps
      rw [List.foldl_cons]
    have hm' := pushUser_sorted x.1 x.2 pkg m hm
    have hInv' := pushUser_inv D x.1 x.2 pkg m hm
      (hds x (List.mem_cons_self x t)) hInv
    obtain ⟨hs2, hi2, hd2⟩ := ih (fun kv hkv => hds kv (List.mem_cons_of_mem x hkv))
      (pushUser x.1 x.2 pkg m) hm' hInv'
    rw [step]
    refine ⟨hs2, hi2, ?_⟩
    intro k
    rw [hd2 k, pushUser_lookup x.1 x.2 pkg m hm k]
    constructor
    · rintro (⟨v, hv⟩ | hnn)
      · exact Or.inl ⟨v, List.mem_cons_of_mem x hv⟩
      · split at hnn
        · rename_i hk
          exact Or.inl ⟨x.2, hk ▸ List.mem_cons_self x t⟩
        · exact Or.inr hnn
    · rintro (⟨v, hv⟩ | hnn)
      · rcases List.mem_cons.mp hv with heq | hv
        · refine Or.inr ?_
          rw [if_pos (congrArg Prod.fst heq)]
          simp
        · exact Or.inl ⟨v, hv⟩
      · refine Or.inr ?_
        split
        · simp
        · exact hnn

theorem maxBy_not_gt {α : Type} (c : α → α → Ordering) (l : List α) (m : α)
    (horient : ∀ a ∈ l, ∀ b ∈ l, c a b = .gt → c b a ≠ .gt)
    (hrefl : ∀ a ∈ l, c a a ≠ .gt)
    (htr : ∀ a ∈ l, ∀ b ∈ l, ∀ d ∈ l, c a b ≠ .gt → c b d ≠ .gt → c a d ≠ .gt)
    (hm : maxBy c l = some m) : ∀ x ∈ l, c x m ≠ .gt := by
  cases l with
  | nil => exact absurd hm (by simp [maxBy])
  | cons x0 t0 =>
    have key : ∀ (t : List α) (acc : α), acc ∈ x0 :: t0 → (∀ y ∈ t, y ∈ x0 :: t0) →
        (t.foldl (fun acc y => if c acc y = .gt then acc else y) acc = acc ∨
          t.foldl (fun acc y => if c acc y = .gt then acc else y) acc ∈ t) ∧
        c acc (t.foldl (fun acc y => if c acc y = .gt then acc else y) acc) ≠ .gt ∧
        ∀ z ∈ t, c z (t.foldl (fun acc y => if c acc y = .gt then acc else y) acc) ≠ .gt := by
      intro t
      induction t with
      | nil =>
        intro acc hacc _
        exact ⟨Or.inl rfl, hrefl acc hacc, by simp⟩
      | cons y t2 ih =>
        intro acc hacc hsub
        have hyL : y ∈ x0 :: t0 := hsub y (List.mem_cons_self y t2)
        have hstepL : (if c acc y = .gt then acc else y) ∈ x0 :: t0 := by
          split
          · exact hacc
          · exact hyL
        obtain ⟨hmem, hrel, hall⟩ := ih (if c acc y = .gt then acc else y) hstepL
          (fun z hz => hsub z (List.mem_cons_of_mem y hz))
        have hfold_mem :
            (t2.foldl (fun acc y => if c acc y = .gt then acc else y)
              (if c acc y = .gt then acc else y)) ∈ x0 :: t0 := by
          rcases hmem with h | h
          · rw [h]; exact hstepL
          · exact hsub _ (List.mem_cons_of_mem y h)
        refine ⟨?_, ?_, ?_⟩
        · rw [List.foldl_cons]
          rcases hmem with h | h
          · rw [h]
            split
            · exact Or.inl rfl
            · exact Or.inr (List.mem_cons_self y t2)
          · exact Or.inr (List.mem_cons_of_mem y h)
        · rw [List.foldl_cons]
          by_cases hc : c acc y = .gt
          · rw [if_pos hc] at hrel ⊢
            exact hrel
          · rw [if_neg hc] at hrel hfold_mem ⊢
            exact htr acc hacc y hyL _ hfold_mem hc hrel
        · intro z hz
          rw [List.foldl_cons]
          rcases List.mem_cons.mp hz with rfl | hz
          · by_cases hc : c acc z = .gt
            · rw [if_pos hc] at hrel hfold_mem ⊢
              exact htr z hyL acc hacc _ hfold_mem (horient acc hacc z hyL hc) hrel
            · rw [if_neg hc] at hrel ⊢
              exact hrel
          · exact hall z hz
    obtain ⟨_, hrel0, hall0⟩ := key t0 x0 (List.mem_cons_self x0 t0) (fun y hy => List.mem_cons_of_mem x0 hy)
    have hfm := Option.some.inj hm
    intro z hz
    rcases List.mem_cons.mp hz with rfl | hz
    · rw [← hfm]
      exact hrel0
    · rw [← hfm]
      exact hall0 z hz

theorem members_fold_props (w : Workspace) (ms : List WorkspaceMember)
    (hms : ∀ x ∈ ms, x ∈ w.members) :
    ∀ m, SortedKeys m → MapInv (declaredRange w) m →
      SortedKeys (ms.foldl (fun deps member =>
        addDeps member.name member.package_json.dev_dependencies
          (addDeps member.name member.package_json.dependencies deps)) m) ∧
      MapInv (declaredRange w) (ms.foldl (fun deps member =>
        addDeps member.name member.package_json.dev_dependencies
          (addDeps member.name member.package_json.dependencies deps)) m) ∧
      ∀ k, (List.lookup k (ms.foldl (fun deps member =>
          addDeps member.name member.package_json.dev_dependencies
            (addDeps member.name member.package_json.dependencies deps)) m) ≠ none ↔
        (∃ x ∈ ms, ∃ v, (k, v) ∈ x.package_json.dependencies ∨
          (k, v) ∈ x.package_json.dev_dependencies) ∨ List.lookup k m ≠ none) := by
  induction ms with
  | nil =>
    intro m hm hInv
    exact ⟨hm, hInv, fun k => by simp⟩
  | cons x t ih =>
    intro m hm hInv
    have hxw : x ∈ w.members := hms x (List.mem_cons_self x t)
    have hD1 : ∀ kv ∈ x.package_json.dependencies, declaredRange w kv.1 kv.2 :=
      fun kv hkv => Or.inr (Or.inr ⟨x, hxw, Or.inl hkv⟩)
    have hD2 : ∀ kv ∈ x.package_json.dev_dependencies, declaredRange w kv.1 kv.2 :=
      fun kv hkv => Or.inr (Or.inr ⟨x, hxw, Or.inr hkv⟩)
    obtain ⟨ha1, hi1, hl1⟩ :=
      addDeps_props (declaredRange w) x.name x.package_json.dependencies hD1 m hm hInv
    obtain ⟨ha2, hi2, hl2⟩ :=
      addDeps_props (declaredRange w) x.name x.package_json.dev_dependencies hD2
        (addDeps x.name x.package_json.dependencies m) ha1 hi1
    obtain ⟨hs3, hi3, hl3⟩ := ih (fun y hy => hms y (List.mem_cons_of_mem x hy)) _ ha2 hi2
    rw [List.foldl_cons]
    refine ⟨hs3, hi3, ?_⟩
    intro k
    rw [hl3 k, hl2 k, hl1 k]
    constructor
    · rintro (⟨y, hy, v, hv⟩ | ⟨v, hv⟩ | ⟨v, hv⟩ | hnn)
      · exact Or.inl ⟨y, List.mem_cons_of_mem x hy, v, hv⟩
      · exact Or.inl ⟨x, List.mem_cons_self x t, v, Or.inr hv⟩
      · exact Or.inl ⟨x, List.mem_cons_self x t, v, Or.inl hv⟩
      · exact Or.inr hnn
    · rintro (⟨y, hy, v, hv⟩ | hnn)
      · rcases List.mem_cons.mp hy with rfl | hy
        · rcases hv with hv | hv
          · exact Or.inr (Or.inr (Or.inl ⟨v, hv⟩))
          · exact Or.inr (Or.inl ⟨v, hv⟩)
        · exact Or.inl ⟨y, hy, v, hv⟩
      · exact Or.inr (Or.inr (Or.inr hnn))

theorem collect_props (w : Workspace) :
    SortedKeys (collect_all_dependencies w) ∧
    MapInv (declaredRange w) (collect_all_dependencies w) ∧
    ∀ k, (List.lookup k (collect_all_dependencies w) ≠ none ↔
      ∃ r, declaredRange w k r) := by
  have hD1 : ∀ kv ∈ w.root_package.dependencies, declaredRange w kv.1 kv.2 :=
    fun kv hkv => Or.inl hkv
  have hD2 : ∀ kv ∈ w.root_package.dev_dependencies, declaredRange w kv.1 kv.2 :=
    fun kv hkv => Or.inr (Or.inl hkv)
  have hInv0 : MapInv (declaredRange w) [] := by
    intro k vs hvs
    exact absurd hvs (by simp)
  obtain ⟨ha1, hi1, hl1⟩ :=
    addDeps_props (declaredRange w) w.root_package.name w.root_package.dependencies hD1 []
      (by simp [SortedKeys]) hInv0
  obtain ⟨ha2, hi2, hl2⟩ :=
    addDeps_props (declaredRange w) w.root_package.name w.root_package.dev_dependencies hD2
      _ ha1 hi1
  obtain ⟨hs3, hi3, hl3⟩ := members_fold_props w w.members (fun x hx => hx) _ ha2 hi2
  refine ⟨hs3, hi3, ?_⟩
  intro k
  unfold collect_all_dependencies
  rw [hl3 k, hl2 k, hl1 k]
  constructor
  · rintro (⟨y, hy, v, hv⟩ | ⟨v, hv⟩ | ⟨v, hv⟩ | hnn)
    · rcases hv with hv | hv
      · exact ⟨v, Or.inr (Or.inr ⟨y, hy, Or.inl hv⟩)⟩
      · exact ⟨v, Or.inr (Or.inr ⟨y, hy, Or.inr hv⟩)⟩
    · exact ⟨v, Or.inr (Or.inl hv)⟩
    · exact ⟨v, Or.inl hv⟩
    · exact absurd rfl hnn
  · rintro ⟨r, hr | hr | ⟨y, hy, hr | hr⟩⟩
    · exact Or.inr (Or.inr (Or.inl ⟨r, hr⟩))
    · exact Or.inr (Or.inl ⟨r, hr⟩)
    · exact Or.inl ⟨y, hy, r, Or.inl hr⟩
    · exact Or.inl ⟨y, hy, r, Or.inr hr⟩

theorem hoisted_fold_lookup {V R : Type} [LinearOrder V] (S : SemverOps V R)
    (w : Workspace) (l : List (String × List (String × List String)))
    (hl : SortedKeys l) :
    ∀ (h0 : List (String × String)) (dep : String),
      List.lookup dep (l.foldl (fun hoisted dv =>
        if w.members.any (fun m => m.name = dv.1) then hoisted
        else
          let best_version := ((maxBy (hoistCmp S) dv.2).map Prod.fst).getD ""
          if best_version.isEmpty then hoisted
          else smapInsert dv.1 best_version hoisted) h0) =
      match List.lookup dep l with
      | some vs =>
        if w.members.any (fun m => m.name = dep) then List.lookup dep h0
        else
          if (((maxBy (hoistCmp S) vs).map Prod.fst).getD "").isEmpty then
            List.lookup dep h0
          else some (((maxBy (hoistCmp S) vs).map Prod.fst).getD "")
      | none => List.lookup dep h0 := by
  induction l with
  | nil =>
    intro h0 dep
    rfl
  | cons x t ih =>
    obtain ⟨k, vs⟩ := x
    rw [SortedKeys, List.pairwise_cons] at hl
    intro h0 dep
    rw [List.foldl_cons]
    rw [ih hl.2]
    by_cases hdk : dep = k
    · subst hdk
      have htnone : List.lookup dep t = none :=
        lookup_eq_none_of_ne (fun kv hkv => ne_of_gt (hl.1 kv hkv))
      have hlk : List.lookup dep ((dep, vs) :: t) = some vs := by
        simp [List.lookup, beq_true_of_eq rfl]
      rw [htnone, hlk]
      show List.lookup dep (if (w.members.any fun m => decide (m.name = dep)) = true then h0
        else
          if (((maxBy (hoistCmp S) vs).map Prod.fst).getD "").isEmpty = true then h0
          else smapInsert dep (((maxBy (hoistCmp S) vs).map Prod.fst).getD "") h0)
        = if (w.members.any fun m => decide (m.name = dep)) = true then List.lookup dep h0
          else
            if (((maxBy (hoistCmp S) vs).map Prod.fst).getD "").isEmpty = true then
              List.lookup dep h0
            else some (((maxBy (hoistCmp S) vs).map Prod.fst).getD "")
      by_cases hc1 : (w.members.any fun m => decide (m.name = dep)) = true
      · rw [if_pos hc1, if_pos hc1]
      · rw [if_neg hc1, if_neg hc1]
        by_cases hc2 : (((maxBy (hoistCmp S) vs).map Prod.fst).getD "").isEmpty = true
        · rw [if_pos hc2, if_pos hc2]
        · rw [if_neg hc2, if_neg hc2, smapInsert_lookup, if_pos rfl]
    · have hlk : List.lookup dep ((k, vs) :: t) = List.lookup dep t := by
        simp [List.lookup, beq_false_of_ne hdk]
      rw [hlk]
      have hstep : List.lookup dep
          (if (w.members.any fun m => decide (m.name = k)) = true then h0
            else
              if (((maxBy (hoistCmp S) vs).map Prod.fst).getD "").isEmpty = true then h0
              else smapInsert k (((maxBy (hoistCmp S) vs).map Prod.fst).getD "") h0)
          = List.lookup dep h0 := by
        by_cases hc1 : (w.members.any fun m => decide (m.name = k)) = true
        · rw [if_pos hc1]
        · rw [if_neg hc1]
          by_cases hc2 : (((maxBy (hoistCmp S) vs).map Prod.fst).getD "").isEmpty = true
          · rw [if_pos hc2]
          · rw [if_neg hc2, smapInsert_lookup, if_neg hdk]
      cases hdt : List.lookup dep t with
      | some vs' =>
        show (if (w.members.any fun m => decide (m.name = dep)) = true then
            List.lookup dep (if (w.members.any fun m => decide (m.name = k)) = true then h0
              else
                if (((maxBy (hoistCmp S) vs).map Prod.fst).getD "").isEmpty = true then h0
                else smapInsert k (((maxBy (hoistCmp S) vs).map Prod.fst).getD "") h0)
          else
            if (((maxBy (hoistCmp S) vs').map Prod.fst).getD "").isEmpty = true then
              List.lookup dep (if (w.members.any fun m => decide (m.name = k)) = true then h0
                else
                  if (((maxBy (hoistCmp S) vs).map Prod.fst).getD "").isEmpty = true then h0
                  else smapInsert k (((maxBy (hoistCmp S) vs).map Prod.fst).getD "") h0)
            else some (((maxBy (hoistCmp S) vs').map Prod.fst).getD ""))
          = if (w.members.any fun m => decide (m.name = dep)) = true then List.lookup dep h0
            else
              if (((maxBy (hoistCmp S) vs').map Prod.fst).getD "").isEmpty = true then
                List.lookup dep h0
              else some (((maxBy (hoistCmp S) vs').map Prod.fst).getD "")
        by_cases hc1 : (w.members.any fun m => decide (m.name = dep)) = true
        · rw [if_pos hc1, if_pos hc1, hstep]
        · rw [if_neg hc1, if_neg hc1]
          by_cases hc2 : (((maxBy (hoistCmp S) vs').map Prod.fst).getD "").isEmpty = true
          · rw [if_pos hc2, if_pos hc2, hstep]
          · rw [if_neg hc2, if_neg hc2]
      | none => exact hstep

theorem hoistCmp_le_lex {V R : Type} [LinearOrder V] (S : SemverOps V R)
    (a b : String × List String) (pa pb : V)
    (ha : S.parseVersion (clean_version a.1) = some pa)
    (hb : S.parseVersion (clean_version b.1) = some pb) :
    hoistCmp S a b ≠ .gt ↔
      (a.2.length < b.2.length ∨ (a.2.length = b.2.length ∧ pa ≤ pb)) := by
  have hcv : compare_versions S a.1 b.1 = compare pa pb := by
    simp only [compare_versions, ha, hb]
  unfold hoistCmp
  rw [hcv]
  cases hcmp : compare a.2.length b.2.length with
  | lt =>
    have hlen := compare_lt_iff_lt.mp hcmp
    simp [hlen]
  | eq =>
    have hlen := compare_eq_iff_eq.mp hcmp
    rw [compare_le_iff_le]
    simp [hlen]
  | gt =>
    have hlen := compare_gt_iff_gt.mp hcmp
    simp [not_lt.mpr (le_of_lt hlen), hlen, ne_of_gt hlen]

/-- C7: the hoisted root dependency map has one entry for every dependency
name declared in the root's or a member's `dependencies`/`devDependencies`
that is not itself a member name; the version recorded for it comes from a
`(version, users)` pair of the collected map that maximizes the number of
users and, on ties, semver precedence of the cleaned version token.
`hempty` and `hparse` say that the external semver parser rejects the empty
string and accepts every declared range once cleaned (the claim presumes
semver-parseable tokens). -/
theorem hoisted_dependencies_spec {V R : Type} [LinearOrder V] (S : SemverOps V R)
    (w : Workspace)
    (hempty : S.parseVersion "" = none)
    (hparse : ∀ dep r, declaredRange w dep r → (S.parseVersion (clean_version r)).isSome) :
    (∀ dep, (∃ v, List.lookup dep (get_hoisted_dependencies S w) = some v) ↔
      ((∃ r, declaredRange w dep r) ∧ ∀ m ∈ w.members, m.name ≠ dep)) ∧
    (∀ dep v, List.lookup dep (get_hoisted_dependencies S w) = some v →
      ∃ vs, List.lookup dep (collect_all_dependencies w) = some vs ∧
        ∃ users, (v, users) ∈ vs ∧
          ∀ vu ∈ vs, vu.2.length ≤ users.length ∧
            (vu.2.length = users.length →
              ∀ pv2 pv, S.parseVersion (clean_version vu.1) = some pv2 →
                S.parseVersion (clean_version v) = some pv → pv2 ≤ pv)) := by
  obtain ⟨hsort, hinv, hdom⟩ := collect_props w
  have e0 : get_hoisted_dependencies S w
      = (collect_all_dependencies w).foldl (fun hoisted dv =>
          if w.members.any (fun m => m.name = dv.1) then hoisted
          else
            let best_version := ((maxBy (hoistCmp S) dv.2).map Prod.fst).getD ""
            if best_version.isEmpty then hoisted
            else smapInsert dv.1 best_version hoisted) [] := rfl
  have hfold := hoisted_fold_lookup S w (collect_all_dependencies w) hsort []
  -- the ordering laws of `hoistCmp` on any version list whose tokens parse
  have hlaws : ∀ dep (vs : List (String × List String)),
      (∀ vu ∈ vs, declaredRange w dep vu.1) →
      (∀ a ∈ vs, ∀ b ∈ vs, hoistCmp S a b = .gt → hoistCmp S b a ≠ .gt) ∧
      (∀ a ∈ vs, hoistCmp S a a ≠ .gt) ∧
      (∀ a ∈ vs, ∀ b ∈ vs, ∀ d ∈ vs,
        hoistCmp S a b ≠ .gt → hoistCmp S b d ≠ .gt → hoistCmp S a d ≠ .gt) := by
    intro dep vs hdecl
    have hp : ∀ a ∈ vs, ∃ pa, S.parseVersion (clean_version a.1) = some pa :=
      fun a ha => Option.isSome_iff_exists.mp (hparse dep a.1 (hdecl a ha))
    refine ⟨?_, ?_, ?_⟩
    · intro a ha b hb hgt
      obtain ⟨pa, hpa⟩ := hp a ha
      obtain ⟨pb, hpb⟩ := hp b hb
      have h1 : ¬ (a.2.length < b.2.length ∨ (a.2.length = b.2.length ∧ pa ≤ pb)) :=
        fun hor => (hoistCmp_le_lex S a b pa pb hpa hpb).mpr hor hgt
      push_neg at h1
      rw [hoistCmp_le_lex S b a pb pa hpb hpa]
      rcases lt_trichotomy b.2.length a.2.length with h | h | h
      · exact Or.inl h
      · exact Or.inr ⟨h, le_of_lt (h1.2 h.symm)⟩
      · exact absurd h (not_lt.mpr h1.1)
    · intro a ha
      obtain ⟨pa, hpa⟩ := hp a ha
      rw [hoistCmp_le_lex S a a pa pa hpa hpa]
      exact Or.inr ⟨rfl, le_refl pa⟩
    · intro a ha b hb d hd hab hbd
      obtain ⟨pa, hpa⟩ := hp a ha
      obtain ⟨pb, hpb⟩ := hp b hb
      obtain ⟨pd, hpd⟩ := hp d hd
      rw [hoistCmp_le_lex S a b pa pb hpa hpb] at hab
      rw [hoistCmp_le_lex S b d pb pd hpb hpd] at hbd
      rw [hoistCmp_le_lex S a d pa pd hpa hpd]
      rcases hab with h1 | ⟨h1, h1'⟩ <;> rcases hbd with h2 | ⟨h2, h2'⟩
      · exact Or.inl (lt_trans h1 h2)
      · exact Or.inl (h2 ▸ h1)
      · exact Or.inl (h1 ▸ h2)
      · exact Or.inr ⟨h1.trans h2, le_trans h1' h2'⟩
  constructor
  · intro dep
    constructor
    · rintro ⟨v, hv⟩
      rw [e0, hfold dep] at hv
      cases hcol : List.lookup dep (collect_all_dependencies w) with
      | none =>
        rw [hcol] at hv
        exact absurd (show List.lookup dep ([] : List (String × String)) = some v from hv)
          (by simp [List.lookup])
      | some vs =>
        rw [hcol] at hv
        have hv' : (if (w.members.any fun m => decide (m.name = dep)) = true then
            List.lookup dep ([] : List (String × String))
          else
            if (((maxBy (hoistCmp S) vs).map Prod.fst).getD "").isEmpty = true then
              List.lookup dep ([] : List (String × String))
            else some (((maxBy (hoistCmp S) vs).map Prod.fst).getD "")) = some v := hv
        by_cases hc1 : (w.members.any fun m => decide (m.name = dep)) = true
        · rw [if_pos hc1] at hv'
          exact absurd hv' (by simp [List.lookup])
        · refine ⟨(hdom dep).mp (by rw [hcol]; simp), ?_⟩
          have hfalse : (w.members.any fun m => decide (m.name = dep)) = false := by
            cases hx : (w.members.any fun m => decide (m.name = dep))
            · rfl
            · exact absurd hx hc1
          intro m hm heq
          have hdm := List.any_eq_false.mp hfalse m hm
          rw [heq] at hdm
          simp at hdm
    · rintro ⟨⟨r, hr⟩, hmem⟩
      have hne : List.lookup dep (collect_all_dependencies w) ≠ none := (hdom dep).mpr ⟨r, hr⟩
      cases hcol : List.lookup dep (collect_all_dependencies w) with
      | none => exact absurd hcol hne
      | some vs =>
        have hvsinv := hinv dep vs hcol
        obtain ⟨b, hb⟩ : ∃ b, maxBy (hoistCmp S) vs = some b := by
          cases vs with
          | nil => exact absurd rfl hvsinv.1
          | cons a t => exact ⟨_, rfl⟩
        have hbmem := maxBy_mem _ vs b hb
        have hbparse := hparse dep b.1 (hvsinv.2 b hbmem)
        have hbne : ¬ b.1 = "" := by
          intro he
          rw [he, show clean_version "" = "" from rfl, hempty] at hbparse
          exact absurd hbparse (by simp)
        have hfalse : (w.members.any fun m => decide (m.name = dep)) = false := by
          rw [List.any_eq_false]
          intro m hm
          simp [hmem m hm]
        have hbest : ((maxBy (hoistCmp S) vs).map Prod.fst).getD "" = b.1 := by
          rw [hb]
          rfl
        have hnotempty : ¬ ((((maxBy (hoistCmp S) vs).map Prod.fst).getD "").isEmpty = true) := by
          rw [hbest]
          simp only [String.isEmpty_iff]
          exact hbne
        refine ⟨((maxBy (hoistCmp S) vs).map Prod.fst).getD "", ?_⟩
        rw [e0, hfold dep, hcol]
        show (if (w.members.any fun m => decide (m.name = dep)) = true then
            List.lookup dep ([] : List (String × String))
          else
            if (((maxBy (hoistCmp S) vs).map Prod.fst).getD "").isEmpty = true then
              List.lookup dep ([] : List (String × String))
            else some (((maxBy (hoistCmp S) vs).map Prod.fst).getD ""))
          = some (((maxBy (hoistCmp S) vs).map Prod.fst).getD "")
        rw [if_neg (by rw [hfalse]; simp), if_neg hnotempty]
  · intro dep v hv
    rw [e0, hfold dep] at hv
    cases hcol : List.lookup dep (collect_all_dependencies w) with
    | none =>
      rw [hcol] at hv
      exact absurd (show List.lookup dep ([] : List (String × String)) = some v from hv)
        (by simp [List.lookup])
    | some vs =>
      rw [hcol] at hv
      have hv' : (if (w.members.any fun m => decide (m.name = dep)) = true then
          List.lookup dep ([] : List (String × String))
        else
          if (((maxBy (hoistCmp S) vs).map Prod.fst).getD "").isEmpty = true then
            List.lookup dep ([] : List (String × String))
          else some (((maxBy (hoistCmp S) vs).map Prod.fst).getD "")) = some v := hv
      by_cases hc1 : (w.members.any fun m => decide (m.name = dep)) = true
      · rw [if_pos hc1] at hv'
        exact absurd hv' (by simp [List.lookup])
      · rw [if_neg hc1] at hv'
        by_cases hc2 : ((((maxBy (hoistCmp S) vs).map Prod.fst).getD "").isEmpty = true)
        · rw [if_pos hc2] at hv'
          exact absurd hv' (by simp [List.lookup])
        · rw [if_neg hc2] at hv'
          have hveq := Option.some.inj hv'
          have hvsinv := hinv dep vs hcol
          obtain ⟨b, hb⟩ : ∃ b, maxBy (hoistCmp S) vs = some b := by
            cases vs with
            | nil => exact absurd rfl hvsinv.1
            | cons a t => exact ⟨_, rfl⟩
          have hbmem := maxBy_mem _ vs b hb
          have hbest : ((maxBy (hoistCmp S) vs).map Prod.fst).getD "" = b.1 := by
            rw [hb]
            rfl
          have hvb : v = b.1 := by rw [← hveq, hbest]
          obtain ⟨horient, hrefl, htr⟩ := hlaws dep vs hvsinv.2
          have hmax := maxBy_not_gt (hoistCmp S) vs b horient hrefl htr hb
          obtain ⟨pb, hpb⟩ :=
            Option.isSome_iff_exists.mp (hparse dep b.1 (hvsinv.2 b hbmem))
          refine ⟨vs, rfl, b.2, ?_, ?_⟩
          · rw [hvb, Prod.mk.eta]
            exact hbmem
          · intro vu hvu
            obtain ⟨pu, hpu⟩ :=
              Option.isSome_iff_exists.mp (hparse dep vu.1 (hvsinv.2 vu hvu))
            have hrel := hmax vu hvu
            rw [hoistCmp_le_lex S vu b pu pb hpu hpb] at hrel
            constructor
            · rcases hrel with h | ⟨h, _⟩
              · exact le_of_lt h
              · exact le_of_eq h
            · intro hlen pv2 pv hp2 hp
              have e1 : pu = pv2 := Option.some.inj (hpu.symm.trans hp2)
              have e2 : pb = pv := by
                rw [hvb] at hp
                exact Option.some.inj (hpb.symm.trans hp)
              rcases hrel with h | ⟨_, h⟩
              · exact absurd hlen (ne_of_lt h)
              · rw [← e1, ← e2]
                exact h

/-- Witness for C7: in the sample workspace (root wants `lodash@^2`, member
`app` wants `lodash@3`), `lodash` is hoisted. -/
theorem hoisted_dependencies_witness :
    ∃ v, List.lookup "lodash" (get_hoisted_dependencies natSemver sampleWorkspace) = some v :=
  ((hoisted_dependencies_spec natSemver sampleWorkspace (by decide)
      (by
        intro dep r hd
        have hr : r = "^2" ∨ r = "3" := by
          rcases hd with h | h | ⟨m, hm, h | h⟩
          · exact Or.inl (congrArg Prod.snd (List.mem_singleton.mp h))
          · exact absurd h (List.not_mem_nil _)
          · rw [List.mem_singleton.mp hm] at h
            exact Or.inr (congrArg Prod.snd (List.mem_singleton.mp h))
          · rw [List.mem_singleton.mp hm] at h
            exact absurd h (List.not_mem_nil _)
        rcases hr with rfl | rfl <;> decide)).1 "lodash").mpr
    ⟨⟨"^2", Or.inl (by decide)⟩, by
      intro m hm
      rw [List.mem_singleton.mp hm]
      decide⟩

end Rpm
